import Mathlib

/-!
Verification of the Hybrid Retrieval Engine of the `mynotebooklm` backend.

This file is a shallow embedding, in Lean 4, of the retrieval-side services of
the repository (`backend/app/services/`):

* `hybrid_retriever.py` — merging, reciprocal-rank fusion, final assembly;
* `reranker.py`         — cross-encoder reranking with fallback;
* `bm25_store.py`       — sparse index: tokenization and search;
* `vector_store.py`     — dense index: cosine similarity and the four
                          parallel-list collections;
* `entity_extractor.py` — LLM-output parsing for entity/relation extraction.

Modelling conventions:

* Python floats are modelled as exact rationals (`ℚ`); floating-point rounding
  is outside the scope of the verified properties.
* Python dicts that are used as insertion-ordered maps are modelled as
  association lists (`List (key × value)`); assignment keeps the position of an
  existing key and appends a fresh key at the end, as CPython does.
* External callables (the cross-encoder `model.predict`, `rank_bm25`'s
  `BM25Okapi.get_scores`, `math.sqrt`) are modelled as explicit function
  parameters; a raising call is modelled by an `Option` value.
* `sorted(..., reverse=True)` / `list.sort(key=..., reverse=True)` (stable
  descending sort) is modelled by the stable insertion sort `sortDescBy`,
  ascending sort by `sortAscBy`.
-/

/-! ## Stable sorting (model of Python `list.sort` / `sorted`) -/

/-- Stable descending insertion: `x` is placed before the first element whose
key is `≤ key x`; elements with equal keys therefore keep their original
relative order, exactly as Python's stable sort does. -/
def insertDescBy {α : Type} (key : α → ℚ) (x : α) : List α → List α
  | [] => [x]
  | y :: ys => if key y ≤ key x then x :: y :: ys else y :: insertDescBy key x ys

/-- Stable descending sort by a rational key (model of
`sorted(l, key=..., reverse=True)`). -/
def sortDescBy {α : Type} (key : α → ℚ) : List α → List α
  | [] => []
  | x :: xs => insertDescBy key x (sortDescBy key xs)

/-- Stable ascending sort by a rational key (model of `sorted(l, key=...)`):
descending sort by the negated key places `x` before `y` iff
`key x ≤ key y`, which is exactly Python's stable ascending order. -/
def sortAscBy {α : Type} (key : α → ℚ) (l : List α) : List α :=
  sortDescBy (fun a => -(key a)) l

/-! ## Association lists (model of Python `dict`) -/

/-- Lookup in an insertion-ordered association list. -/
def dictGet? {β : Type} : List (String × β) → String → Option β
  | [], _ => none
  | (k, v) :: rest, key => if k = key then some v else dictGet? rest key

/-- `d[key] = value` on an insertion-ordered dict: overwrite in place if the
key exists, append at the end otherwise (CPython semantics). -/
def dictSet {β : Type} : List (String × β) → String → β → List (String × β)
  | [], key, value => [(key, value)]
  | (k, v) :: rest, key, value =>
      if k = key then (key, value) :: rest else (k, v) :: dictSet rest key value

/-- `del d[key]` on a dict (used by `delete_notebook`). -/
def dictDel {β : Type} : List (String × β) → String → List (String × β)
  | [], _ => []
  | (k, v) :: rest, key => if k = key then rest else (k, v) :: dictDel rest key


/-- Python `str.strip()` on the character level: drop leading and trailing
whitespace. -/
def trimChars (cs : List Char) : List Char :=
  ((cs.dropWhile Char.isWhitespace).reverse.dropWhile Char.isWhitespace).reverse

/-- Python `str.lower()` (modelled on ASCII letters; the verified properties
do not depend on the full Unicode case map). -/
def pyLower (s : String) : String :=
  String.mk (s.toList.map Char.toLower)

/-- Python `str.strip()`. -/
def pyStrip (s : String) : String :=
  String.mk (trimChars s.toList)

/-! ## Reranker (`backend/app/services/reranker.py`) -/

/-- An element of the `documents` argument of `Reranker.rerank`: a dict with
keys `text`, `metadata`, `score` (the pre-existing fusion score) and `source`
(the comma-joined source tag string), as built by `HybridRetriever.retrieve`.
All four keys are always present there, so `doc.get(k, default)` is modelled
by plain field access. -/
structure RerankDoc where
  text : String
  metadata : List (String × String)
  score : ℚ
  source : String
deriving DecidableEq

/-- `RankedResult` dataclass of `reranker.py`. -/
structure RankedResult where
  text : String
  metadata : List (String × String)
  original_score : ℚ
  rerank_score : ℚ
  source : String
deriving DecidableEq

/-- The fallback `RankedResult` built from a document when the model is
unavailable or scoring raised: `rerank_score` is the pre-existing score. -/
def fallbackRanked (doc : RerankDoc) : RankedResult :=
  { text := doc.text, metadata := doc.metadata, original_score := doc.score,
    rerank_score := doc.score, source := doc.source }

/-- `min(scores)` over a nonempty Python list (head taken explicitly; the
empty case never feeds this definition). -/
def listMin : List ℚ → ℚ
  | [] => 0
  | x :: xs => xs.foldl min x

/-- `max(scores)` over a nonempty Python list. -/
def listMax : List ℚ → ℚ
  | [] => 0
  | x :: xs => xs.foldl max x

/-- The min-max normalized batch built by the success path of
`Reranker.rerank` (lines 96-110): one `RankedResult` per `(doc, score)` pair
of `zip(documents, scores)` with
`rerank_score = (score - min_score) / score_range`, where
`score_range = max - min if max != min else 1.0`. -/
def rerankNormalized (documents : List RerankDoc) (scores : List ℚ) :
    List RankedResult :=
  let min_score := listMin scores
  let max_score := listMax scores
  let score_range := if max_score ≠ min_score then max_score - min_score else 1
  (documents.zip scores).map (fun p =>
    { text := p.1.text, metadata := p.1.metadata, original_score := p.1.score,
      rerank_score := (p.2 - min_score) / score_range, source := p.1.source })

/-- `Reranker.rerank` (`reranker.py`, lines 53-130).

`available` models `self.is_available`, `useReranker` models
`settings.use_reranker`, and `predict` models the call
`self._model.predict(pairs)`: `none` when it raises (the `except` path),
`some scores` when it returns.  `min(scores)` / `max(scores)` on an empty
score list raise `ValueError` in Python, which the same `except` catches, so
`predict = some []` also takes the fallback path.  The function never raises:
every Python exception path is a value here. -/
def Reranker.rerank (available useReranker : Bool) (_query : String)
    (documents : List RerankDoc) (top_k : ℕ) (predict : Option (List ℚ)) :
    List RankedResult :=
  if documents = [] then []
  else if ¬(available = true ∧ useReranker = true) then
    (sortDescBy (fun r => r.rerank_score) (documents.map fallbackRanked)).take top_k
  else
    match predict with
    | none =>
        (sortDescBy (fun r => r.rerank_score) (documents.map fallbackRanked)).take top_k
    | some [] =>
        (sortDescBy (fun r => r.rerank_score) (documents.map fallbackRanked)).take top_k
    | some scores =>
        (sortDescBy (fun r => r.rerank_score) (rerankNormalized documents scores)).take top_k

/-! ## BM25 store (`backend/app/services/bm25_store.py`) -/

/-- The character class of the tokenizer regex `[\w가-힣]+` of
`BM25Store._tokenize`.  Python's Unicode `\w` is modelled by ASCII
alphanumerics plus the underscore, together with the explicitly listed Hangul
syllable block (U+AC00 - U+D7A3); the verified properties do not depend on the
precise extent of `\w`. -/
def isWordChar (c : Char) : Bool :=
  c.isAlphanum || c = '_' || (0xAC00 ≤ c.toNat && c.toNat ≤ 0xD7A3)

/-- Scanner behind `wordRuns`: `cur` is the current (reversed) run of word
characters. -/
def wordRunsGo : List Char → List Char → List (List Char)
  | [], cur => if cur = [] then [] else [cur.reverse]
  | c :: cs, cur =>
      if isWordChar c then wordRunsGo cs (c :: cur)
      else if cur = [] then wordRunsGo cs []
      else cur.reverse :: wordRunsGo cs []

/-- `re.findall(r'[\w가-힣]+', text)`: the maximal runs of word characters,
in order. -/
def wordRuns (cs : List Char) : List (List Char) :=
  wordRunsGo cs []

/-- `BM25Store._tokenize` (lines 63-71): lower-case, extract word-character
runs, drop tokens of length `≤ 1`. -/
def BM25Store.tokenize (text : String) : List String :=
  ((wordRuns (pyLower text).toList).map (fun run => String.mk run)).filter
    (fun t => 1 < t.length)

/-- `BM25SearchResult` dataclass. -/
structure BM25SearchResult where
  text : String
  metadata : List (String × String)
  score : ℚ
deriving DecidableEq

/-- One BM25 collection, as persisted in `<collection>.json`. -/
structure BM25Collection where
  notebook_id : String
  documents : List String
  metadatas : List (List (String × String))
  tokenized_docs : List (List String)
deriving DecidableEq

/-- The in-memory and on-disk state of a `BM25Store`:
`collections` models `self.collections`, `indexes` models
`self._bm25_indexes` (`true` iff the entry is a `BM25Okapi` object rather
than `None`), `files` models the JSON files written by `_save_collection`. -/
structure BM25Store where
  collections : List (String × BM25Collection)
  indexes : List (String × Bool)
  files : List (String × BM25Collection)
deriving DecidableEq

/-- `BM25Store._get_collection_name`. -/
def BM25Store.collectionName (notebook_id : String) : String :=
  "bm25_nb_" ++ notebook_id.take 8

/-- The fresh collection created by `BM25Store.get_or_create_collection`. -/
def BM25Store.emptyCollection (notebook_id : String) : BM25Collection :=
  { notebook_id := notebook_id, documents := [], metadatas := [],
    tokenized_docs := [] }

/-- `BM25Store.get_or_create_collection` (lines 86-98): on a missing
collection it stores an empty one, sets its index entry to `None` and saves
the collection file; it returns the collection name and the new state. -/
def BM25Store.get_or_create_collection (store : BM25Store)
    (notebook_id : String) : String × BM25Store :=
  let name := BM25Store.collectionName notebook_id
  match dictGet? store.collections name with
  | some _ => (name, store)
  | none =>
      (name,
        { collections :=
            dictSet store.collections name (BM25Store.emptyCollection notebook_id),
          indexes := dictSet store.indexes name false,
          files :=
            dictSet store.files name (BM25Store.emptyCollection notebook_id) })

/-- `BM25Store.search` (lines 125-161).

`getScores` models `BM25Okapi.get_scores` of the external `rank_bm25`
library: the per-document Okapi scores for the tokenized query.  Like the
Python code, the search first runs `get_or_create_collection` (a state
change when the collection is missing), sorts `enumerate(scores)`
descending by score, truncates to `top_k`, and keeps only results with a
strictly positive score.  Indexing `collection["documents"][idx]` is
modelled with `List.get?`; an out-of-range index (unreachable when
`getScores` is length-correct) drops the entry. -/
def BM25Store.search (store : BM25Store) (notebook_id : String)
    (query : String) (top_k : ℕ) (getScores : List String → List ℚ) :
    BM25Store × List BM25SearchResult :=
  let nameStore := BM25Store.get_or_create_collection store notebook_id
  let name := nameStore.1
  let store1 := nameStore.2
  let coll := (dictGet? store1.collections name).getD (BM25Store.emptyCollection notebook_id)
  let hasIndex := (dictGet? store1.indexes name).getD false
  if hasIndex = false ∨ coll.documents = [] then (store1, [])
  else
    let query_tokens := BM25Store.tokenize query
    if query_tokens = [] then (store1, [])
    else
      let scores := getScores query_tokens
      let sorted := sortDescBy (fun p => p.2) scores.enum
      let top_results := sorted.take top_k
      let results := top_results.filterMap (fun (p : ℕ × ℚ) =>
        if 0 < p.2 then
          match coll.documents.get? p.1, coll.metadatas.get? p.1 with
          | some t, some m => some (BM25SearchResult.mk t m p.2)
          | _, _ => none
        else none)
      (store1, results)

/-! ## Vector store (`backend/app/services/vector_store.py`) -/

/-- One vector-store collection: the four parallel lists plus the
`notebook_id` recorded at creation time. -/
structure VCollection where
  ids : List String
  embeddings : List (List ℚ)
  documents : List String
  metadatas : List (List (String × String))
  notebook_id : String
deriving DecidableEq

/-- The in-memory (`self.collections`) and on-disk (JSON files written by
`_save_collection`) state of a `VectorStore`. -/
structure VectorStore where
  collections : List (String × VCollection)
  files : List (String × VCollection)
deriving DecidableEq

/-- The result dict of `VectorStore.query`. -/
structure VQueryResult where
  documents : List String
  metadatas : List (List (String × String))
  distances : List ℚ
deriving DecidableEq

/-- `sum(a * b for a, b in zip(vec1, vec2))`. -/
def dotProduct (v1 v2 : List ℚ) : ℚ :=
  ((v1.zip v2).map (fun p => p.1 * p.2)).sum

/-- `sum(a * a for a in vec)` — the square of the Euclidean norm. -/
def normSq (v : List ℚ) : ℚ :=
  (v.map (fun a => a * a)).sum

/-- `VectorStore._cosine_similarity` (lines 47-54).  `sqrtf` models
`math.sqrt`; the caller of the theorems supplies the characterizing fact
`sqrtf x = 0 ↔ x = 0` (true of the real square root on the non-negative
inputs produced here).  The guard `norm1 == 0 or norm2 == 0` returns `0`
before any division; only the final branch divides. -/
def VectorStore.cosine_similarity (sqrtf : ℚ → ℚ) (vec1 vec2 : List ℚ) : ℚ :=
  let norm1 := sqrtf (normSq vec1)
  let norm2 := sqrtf (normSq vec2)
  if norm1 = 0 ∨ norm2 = 0 then 0
  else dotProduct vec1 vec2 / (norm1 * norm2)

/-- `true` iff `_cosine_similarity` reaches its division branch. -/
def VectorStore.cosineDivisionReached (sqrtf : ℚ → ℚ) (vec1 vec2 : List ℚ) :
    Bool :=
  ¬(sqrtf (normSq vec1) = 0 ∨ sqrtf (normSq vec2) = 0)

/-- `VectorStore._get_collection_name`. -/
def VectorStore.collectionName (notebook_id : String) : String :=
  "nb_" ++ notebook_id.take 8

/-- The fresh collection created by `VectorStore.get_or_create_collection`. -/
def VectorStore.emptyCollection (notebook_id : String) : VCollection :=
  { ids := [], embeddings := [], documents := [], metadatas := [],
    notebook_id := notebook_id }

/-- `VectorStore.get_or_create_collection` (lines 56-68): on a missing
collection it stores an empty one and saves its file. -/
def VectorStore.get_or_create_collection (store : VectorStore)
    (notebook_id : String) : String × VectorStore :=
  let name := VectorStore.collectionName notebook_id
  match dictGet? store.collections name with
  | some _ => (name, store)
  | none =>
      (name,
        { collections :=
            dictSet store.collections name (VectorStore.emptyCollection notebook_id),
          files :=
            dictSet store.files name (VectorStore.emptyCollection notebook_id) })

/-- `VectorStore.add_documents` (lines 70-92): appends one id, embedding,
text and metadata entry per element of `zip(texts, embeddings, metadatas)`
(the zip truncates to the shortest input, as in Python), setting
`metadata["document_id"]` on a copy, then saves the collection. -/
def VectorStore.add_documents (store : VectorStore) (notebook_id : String)
    (document_id : String) (texts : List String)
    (embeddings : List (List ℚ)) (metadatas : List (List (String × String))) :
    VectorStore :=
  let nameStore := VectorStore.get_or_create_collection store notebook_id
  let name := nameStore.1
  let store1 := nameStore.2
  let coll := (dictGet? store1.collections name).getD
    (VectorStore.emptyCollection notebook_id)
  let triples := (texts.zip embeddings).zip metadatas
  let coll2 : VCollection :=
    { ids := coll.ids ++ triples.enum.map
        (fun p => document_id ++ "_" ++ toString p.1),
      embeddings := coll.embeddings ++ triples.map (fun t => t.1.2),
      documents := coll.documents ++ triples.map (fun t => t.1.1),
      metadatas := coll.metadatas ++ triples.map
        (fun t => dictSet t.2 "document_id" document_id),
      notebook_id := coll.notebook_id }
  { collections := dictSet store1.collections name coll2,
    files := dictSet store1.files name coll2 }

/-- `VectorStore.query` (lines 94-129): runs `get_or_create_collection`
(a state change when the collection is missing), then a full linear scan
sorted ascending by distance `1 - cosine`, truncated to `top_k`.
Out-of-range parallel-list access (unreachable under the length invariant)
is modelled by `getD` with a default. -/
def VectorStore.query (store : VectorStore) (notebook_id : String)
    (query_embedding : List ℚ) (top_k : ℕ) (sqrtf : ℚ → ℚ) :
    VectorStore × VQueryResult :=
  let nameStore := VectorStore.get_or_create_collection store notebook_id
  let name := nameStore.1
  let store1 := nameStore.2
  let coll := (dictGet? store1.collections name).getD
    (VectorStore.emptyCollection notebook_id)
  if coll.embeddings = [] then
    (store1, { documents := [], metadatas := [], distances := [] })
  else
    let similarities : List (ℕ × ℚ) := coll.embeddings.enum.map
      (fun p => (p.1, 1 - VectorStore.cosine_similarity sqrtf query_embedding p.2))
    let sorted := sortAscBy (fun p => p.2) similarities
    let top_results := sorted.take top_k
    (store1,
      { documents := top_results.map (fun p => coll.documents.getD p.1 ""),
        metadatas := top_results.map (fun p => coll.metadatas.getD p.1 []),
        distances := top_results.map (fun p => p.2) })

/-- `VectorStore.delete_document` (lines 131-149): collects the indices whose
metadata carries the document id, pops them from all four lists in reverse
order, and saves. -/
def VectorStore.delete_document (store : VectorStore) (notebook_id : String)
    (document_id : String) : VectorStore :=
  let nameStore := VectorStore.get_or_create_collection store notebook_id
  let name := nameStore.1
  let store1 := nameStore.2
  let coll := (dictGet? store1.collections name).getD
    (VectorStore.emptyCollection notebook_id)
  let indices_to_delete := coll.metadatas.enum.filterMap
    (fun p => if dictGet? p.2 "document_id" = some document_id then some p.1 else none)
  let coll2 := indices_to_delete.reverse.foldl
    (fun (c : VCollection) i =>
      { ids := c.ids.eraseIdx i, embeddings := c.embeddings.eraseIdx i,
        documents := c.documents.eraseIdx i, metadatas := c.metadatas.eraseIdx i,
        notebook_id := c.notebook_id })
    coll
  { collections := dictSet store1.collections name coll2,
    files := dictSet store1.files name coll2 }

/-- `VectorStore.delete_notebook` (lines 151-158): drops the collection and
deletes its file. -/
def VectorStore.delete_notebook (store : VectorStore) (notebook_id : String) :
    VectorStore :=
  let name := VectorStore.collectionName notebook_id
  match dictGet? store.collections name with
  | some _ =>
      { collections := dictDel store.collections name,
        files := dictDel store.files name }
  | none => store

/-! ## Hybrid retriever (`backend/app/services/hybrid_retriever.py`) -/

/-- A Python value as it occurs in entity lists: the related-entity dicts
returned by the graph store and the summary dicts
`("name" / "type" / "related")` built by `retrieve`.  Strings, lists and
string-keyed dicts suffice for everything those lists hold. -/
inductive PVal where
  | s (v : String)
  | l (v : List PVal)
  | d (v : List (String × PVal))

/-- Projection used to tell entity values apart without a decidable equality
on `PVal`: the `"name"` entry of a dict value, when it is a string. -/
def pvalName : PVal → Option String
  | PVal.d fields =>
      (List.lookup "name" fields).bind (fun v =>
        match v with
        | PVal.s s => some s
        | _ => none)
  | _ => none

/-- `settings.rrf_k` (`backend/app/config.py`, line 48). -/
def settings.rrf_k : ℕ := 60

/-- A per-source search hit as built by `_vector_search` / `_bm25_search`:
a dict with `text`, `metadata`, `score` and 1-based `rank`. -/
structure SearchHit where
  text : String
  metadata : List (String × String)
  score : ℚ
  rank : ℕ
deriving DecidableEq

/-- `GraphSearchResult` dataclass of `graph_store.py`. -/
structure GraphSearchResult where
  entity_name : String
  entity_type : String
  related_entities : List PVal
  context_text : String
  relevance_score : ℚ

/-- A candidate in the `all_results` pool of `HybridRetriever.retrieve`:
a dict holding `text`, `metadata`, the `sources` list, the per-source `ranks`
and `scores` dicts and (set only by `_merge_graph_results`) the `entities`
list; the absent `entities` key of purely vector/bm25 candidates is modelled
as `[]`. -/
structure Candidate where
  text : String
  metadata : List (String × String)
  sources : List String
  ranks : List (String × ℕ)
  scores : List (String × ℚ)
  entities : List PVal

/-- The `all_results` pool: a dict from normalized text prefix to candidate. -/
abbrev AllResults : Type := List (String × Candidate)

/-- `needle` is a prefix of `hay` (character lists). -/
def startsWithChars : List Char → List Char → Bool
  | [], _ => true
  | _ :: _, [] => false
  | n :: ns, h :: hs => n = h && startsWithChars ns hs

/-- Python's `needle in haystack` on strings: some suffix of `hay` starts
with `needle`. -/
def strContains (needle : List Char) : List Char → Bool
  | [] => startsWithChars needle []
  | c :: hs => startsWithChars needle (c :: hs) || strContains needle hs

/-- The deduplication key `text[:100].lower().strip()` of `_merge_results`
and `_merge_graph_results`. -/
def mergeKey (text : String) : String :=
  pyStrip (pyLower (String.mk (text.toList.take 100)))

/-- The body of the loop of `HybridRetriever._merge_results` (lines
252-270): a key collision appends the source name and overwrites that
source's entry in the `ranks` / `scores` dicts, a fresh key appends a new
candidate. -/
def HybridRetriever.mergeStep (source : String) (acc : AllResults)
    (result : SearchHit) : AllResults :=
  let key := mergeKey result.text
  match dictGet? acc key with
  | some c =>
      dictSet acc key
        { c with sources := c.sources ++ [source],
                 ranks := dictSet c.ranks source result.rank,
                 scores := dictSet c.scores source result.score }
  | none =>
      acc ++ [(key,
        { text := result.text, metadata := result.metadata,
          sources := [source], ranks := [(source, result.rank)],
          scores := [(source, result.score)], entities := [] })]

/-- `HybridRetriever._merge_results` (lines 245-270): fold the per-source
hits into the pool. -/
def HybridRetriever.merge_results (all_results : AllResults)
    (new_results : List SearchHit) (source : String) : AllResults :=
  new_results.foldl (HybridRetriever.mergeStep source) all_results

/-- `HybridRetriever._merge_graph_results` (lines 272-301): like
`_merge_results` with source `"graph"` and rank `i + 1` from `enumerate`,
except that a result with empty `context_text` is skipped, the candidate's
`entities` is set to the result's `related_entities`, and a fresh candidate
carries the `entity` / `entity_type` metadata. -/
def HybridRetriever.mergeGraphStep (acc : AllResults)
    (p : ℕ × GraphSearchResult) : AllResults :=
  let result := p.2
  if result.context_text = "" then acc
  else
    let key := mergeKey result.context_text
    match dictGet? acc key with
    | some c =>
        dictSet acc key
          { c with sources := c.sources ++ ["graph"],
                   ranks := dictSet c.ranks "graph" (p.1 + 1),
                   scores := dictSet c.scores "graph" result.relevance_score,
                   entities := result.related_entities }
    | none =>
        acc ++ [(key,
          { text := result.context_text,
            metadata := [("entity", result.entity_name),
                         ("entity_type", result.entity_type)],
            sources := ["graph"], ranks := [("graph", p.1 + 1)],
            scores := [("graph", result.relevance_score)],
            entities := result.related_entities })]

def HybridRetriever.merge_graph_results (all_results : AllResults)
    (graph_results : List GraphSearchResult) : AllResults :=
  graph_results.enum.foldl HybridRetriever.mergeGraphStep all_results

/-- The RRF score computed by `_rrf_fusion`:
`sum(1.0 / (rrf_k + rank) for rank in result["ranks"].values())`. -/
def rrfScore (rrfK : ℕ) (c : Candidate) : ℚ :=
  (c.ranks.map (fun p => (1 : ℚ) / ((rrfK : ℚ) + (p.2 : ℚ)))).sum

/-- `HybridRetriever._rrf_fusion` (lines 303-325): score every pooled
candidate, then sort the dict values (insertion order) descending by
`rrf_score`.  The pair's second component is the `rrf_score` entry the Python
code stores into the candidate dict. -/
def HybridRetriever.rrf_fusion (rrfK : ℕ) (all_results : AllResults) :
    List (Candidate × ℚ) :=
  sortDescBy (fun p => p.2)
    (all_results.map (fun p => (p.2, rrfScore rrfK p.2)))

/-- `",".join(sources)` on the character level. -/
def joinComma : List String → List Char
  | [] => []
  | [s] => s.toList
  | s :: rest => s.toList ++ ',' :: joinComma rest

/-- `string.split(",")` on the character level (Python semantics: splitting
the empty string yields `[""]`). -/
def splitComma (cs : List Char) : List String :=
  match cs with
  | [] => [String.mk []]
  | c :: rest =>
      if c = ',' then String.mk [] :: splitComma rest
      else
        match splitComma rest with
        | [] => [String.mk [c]]
        | t :: ts => String.mk (c :: t.toList) :: ts

/-- `RetrievalResult` dataclass of `hybrid_retriever.py`. -/
structure RetrievalResult where
  text : String
  metadata : List (String × String)
  score : ℚ
  sources : List String
  entities : List PVal

/-- The `graph_entities` summary list built by `retrieve` (lines 104-107):
one `("name" / "type" / "related")` dict per graph search result. -/
def graphEntitySummaries (graph_results : List GraphSearchResult) : List PVal :=
  graph_results.map (fun r =>
    PVal.d [("name", PVal.s r.entity_name), ("type", PVal.s r.entity_type),
            ("related", PVal.l r.related_entities)])

/-- Steps 1-3 of `HybridRetriever.retrieve` (lines 86-107) as they build
the `all_results` pool: each enabled source's hits are merged in turn
(`useG` stands for `use_graph and self.graph_store.is_connected`). -/
def HybridRetriever.retrievePool (vector_results bm25_results : List SearchHit)
    (graph_results : List GraphSearchResult)
    (use_vector use_bm25 useG : Bool) : AllResults :=
  let all0 : AllResults := []
  let all1 := if use_vector then
    HybridRetriever.merge_results all0 vector_results "vector" else all0
  let all2 := if use_bm25 then
    HybridRetriever.merge_results all1 bm25_results "bm25" else all1
  if useG then
    HybridRetriever.merge_graph_results all2 graph_results else all2

/-- `HybridRetriever.retrieve` (lines 86-149), after the three source
searches: the per-source hit lists are parameters (the searches themselves
are network wrappers returning `[]` on failure), and the body merges, fuses,
optionally reranks, and assembles the final results.  `use_reranker` is the
resolved flag of line 84, `settingsUseReranker` the global
`settings.use_reranker` consulted again inside `Reranker.rerank`, and
`reranker_available` / `predict` model the reranker as in `Reranker.rerank`.
-/
def HybridRetriever.retrieveCore (query : String)
    (vector_results bm25_results : List SearchHit)
    (graph_results : List GraphSearchResult)
    (use_vector use_bm25 use_graph graph_connected : Bool)
    (use_reranker settingsUseReranker reranker_available : Bool)
    (top_k : ℕ) (predict : Option (List ℚ)) (rrfK : ℕ) :
    List RetrievalResult :=
  let useG := use_graph && graph_connected
  let all3 := HybridRetriever.retrievePool vector_results bm25_results
    graph_results use_vector use_bm25 useG
  let graph_entities := if useG then graphEntitySummaries graph_results else []
  if all3.isEmpty then []
  else
    let fused := HybridRetriever.rrf_fusion rrfK all3
    if use_reranker && reranker_available then
      let documents := fused.map (fun p =>
        RerankDoc.mk p.1.text p.1.metadata p.2 (String.mk (joinComma p.1.sources)))
      let reranked := Reranker.rerank reranker_available settingsUseReranker
        query documents top_k predict
      reranked.map (fun r =>
        RetrievalResult.mk r.text r.metadata r.rerank_score
          (splitComma r.source.toList)
          (if strContains "graph".toList r.source.toList then graph_entities
           else []))
    else
      (fused.take top_k).map (fun p =>
        RetrievalResult.mk p.1.text p.1.metadata p.2 p.1.sources
          (if p.1.sources.contains "graph" then graph_entities else []))

/-! ## Entity extractor (`backend/app/services/entity_extractor.py`) -/

/-- A decoded JSON value (model of the result of `json.loads`).  Escapes
beyond the common single-character ones and exponent-form numbers are not
modelled; the verified properties do not depend on them. -/
inductive Json where
  | null
  | bool (b : Bool)
  | num (q : ℚ)
  | str (s : String)
  | arr (items : List Json)
  | obj (fields : List (String × Json))

/-- Skip JSON whitespace. -/
def jsonSkipWs : List Char → List Char
  | [] => []
  | c :: cs => if c = ' ' ∨ c = '\n' ∨ c = '\t' ∨ c = '\r' then jsonSkipWs cs else c :: cs

/-- Parse the body of a JSON string literal after the opening quote; returns
the string and the remainder after the closing quote. -/
def jsonParseStringBody : List Char → Option (List Char × List Char)
  | [] => none
  | c :: cs =>
      if c = '"' then some ([], cs)
      else if c = '\\' then
        match cs with
        | [] => none
        | e :: cs2 =>
            let ec : Option Char :=
              if e = '"' then some '"'
              else if e = '\\' then some '\\'
              else if e = '/' then some '/'
              else if e = 'n' then some '\n'
              else if e = 't' then some '\t'
              else if e = 'r' then some '\r'
              else none
            match ec with
            | none => none
            | some d =>
                match jsonParseStringBody cs2 with
                | none => none
                | some (body, rest) => some (d :: body, rest)
      else
        match jsonParseStringBody cs with
        | none => none
        | some (body, rest) => some (c :: body, rest)

/-- Parse a run of decimal digits (at least one). -/
def jsonParseDigits : List Char → Option (List Char × List Char)
  | [] => none
  | c :: cs =>
      if c.isDigit then
        match cs with
        | [] => some ([c], [])
        | d :: _ =>
            if d.isDigit then
              match jsonParseDigits cs with
              | none => none
              | some (ds, rest) => some (c :: ds, rest)
            else some ([c], cs)
      else none

/-- Digit-list to natural number. -/
def digitsToNat (ds : List Char) : ℕ :=
  ds.foldl (fun acc c => 10 * acc + (c.toNat - '0'.toNat)) 0

/-- Parse a JSON number (integer or decimal fraction, optional leading
minus). -/
def jsonParseNum (cs : List Char) : Option (ℚ × List Char) :=
  let signed := match cs with
    | '-' :: rest => (true, rest)
    | _ => (false, cs)
  match jsonParseDigits signed.2 with
  | none => none
  | some (intDs, rest1) =>
      let intPart : ℚ := (digitsToNat intDs : ℚ)
      let fracParsed : Option (ℚ × List Char) :=
        match rest1 with
        | '.' :: rest2 =>
            match jsonParseDigits rest2 with
            | none => none
            | some (fracDs, rest3) =>
                some (intPart + (digitsToNat fracDs : ℚ) / ((10 : ℚ) ^ fracDs.length), rest3)
        | _ => some (intPart, rest1)
      match fracParsed with
      | none => none
      | some (q, rest) => some (if signed.1 then -q else q, rest)

mutual

/-- Fueled recursive-descent parser for one JSON value. -/
def jsonParseValue : ℕ → List Char → Option (Json × List Char)
  | 0, _ => none
  | fuel + 1, cs =>
      match jsonSkipWs cs with
      | [] => none
      | c :: rest =>
          if c = 'n' then
            match rest with
            | 'u' :: 'l' :: 'l' :: rest2 => some (Json.null, rest2)
            | _ => none
          else if c = 't' then
            match rest with
            | 'r' :: 'u' :: 'e' :: rest2 => some (Json.bool true, rest2)
            | _ => none
          else if c = 'f' then
            match rest with
            | 'a' :: 'l' :: 's' :: 'e' :: rest2 => some (Json.bool false, rest2)
            | _ => none
          else if c = '"' then
            match jsonParseStringBody rest with
            | none => none
            | some (body, rest2) => some (Json.str (String.mk body), rest2)
          else if c = '[' then
            match jsonSkipWs rest with
            | ']' :: rest2 => some (Json.arr [], rest2)
            | rest2 => (jsonParseElems fuel rest2).map
                (fun p => (Json.arr p.1, p.2))
          else if c = '\x7b' then
            match jsonSkipWs rest with
            | '\x7d' :: rest2 => some (Json.obj [], rest2)
            | rest2 => (jsonParseFields fuel rest2).map
                (fun p => (Json.obj p.1, p.2))
          else if c.isDigit ∨ c = '-' then
            (jsonParseNum (c :: rest)).map (fun p => (Json.num p.1, p.2))
          else none

/-- Fueled parser for the elements of a (non-empty) JSON array, up to and
including the closing bracket. -/
def jsonParseElems : ℕ → List Char → Option (List Json × List Char)
  | 0, _ => none
  | fuel + 1, cs =>
      match jsonParseValue fuel cs with
      | none => none
      | some (v, rest) =>
          match jsonSkipWs rest with
          | ',' :: rest2 =>
              match jsonParseElems fuel rest2 with
              | none => none
              | some (vs, rest3) => some (v :: vs, rest3)
          | ']' :: rest2 => some ([v], rest2)
          | _ => none

/-- Fueled parser for the fields of a (non-empty) JSON object, up to and
including the closing brace. -/
def jsonParseFields : ℕ → List Char → Option (List (String × Json) × List Char)
  | 0, _ => none
  | fuel + 1, cs =>
      match jsonSkipWs cs with
      | '"' :: rest =>
          match jsonParseStringBody rest with
          | none => none
          | some (keyBody, rest1) =>
              match jsonSkipWs rest1 with
              | ':' :: rest2 =>
                  match jsonParseValue fuel rest2 with
                  | none => none
                  | some (v, rest3) =>
                      match jsonSkipWs rest3 with
                      | ',' :: rest4 =>
                          match jsonParseFields fuel rest4 with
                          | none => none
                          | some (fs, rest5) =>
                              some ((String.mk keyBody, v) :: fs, rest5)
                      | '\x7d' :: rest4 => some ([(String.mk keyBody, v)], rest4)
                      | _ => none
              | _ => none
      | _ => none

end

/-- `json.loads`: parse a complete JSON document (trailing whitespace only).
The fuel `s.length + 1` dominates every chain of recursive calls, each of
which consumes at least one character. -/
def Json.parse (s : String) : Option Json :=
  match jsonParseValue (s.length + 1) s.toList with
  | none => none
  | some (v, rest) =>
      match jsonSkipWs rest with
      | [] => some v
      | _ => none

/-- `re.search(r'\x7b[\s\S]*\x7d', content)` of
`EntityExtractor._parse_extraction_response` (line 112): the leftmost, greedy
match runs from the first opening brace to the last closing brace of the
whole text (`none` when no such span exists). -/
def findJsonMatch (cs : List Char) : Option (List Char) :=
  let s1 := cs.dropWhile (fun c => c ≠ '\x7b')
  let s2 := (s1.reverse.dropWhile (fun c => c ≠ '\x7d')).reverse
  if s2.isEmpty then none else some s2

/-- Brace-balancing scanner: consumes characters starting at an opening brace
(depth counts the braces currently open) and returns the prefix up to the
brace that closes the first one. -/
def balancedGo (depth : ℕ) : List Char → Option (List Char)
  | [] => none
  | c :: cs =>
      if c = '\x7b' then (balancedGo (depth + 1) cs).map (fun l => c :: l)
      else if c = '\x7d' then
        if depth ≤ 1 then some [c]
        else (balancedGo (depth - 1) cs).map (fun l => c :: l)
      else (balancedGo depth cs).map (fun l => c :: l)

/-- Modelled from the spec (section 4.4): "Parse by locating the first
balanced `\x7b...\x7d` block in the model's output."  Returns the block from
the first opening brace through the brace that balances it. -/
def firstBalancedBlock (cs : List Char) : Option (List Char) :=
  match cs.dropWhile (fun c => c ≠ '\x7b') with
  | [] => none
  | l => balancedGo 0 l

/-- `Entity` dataclass of `graph_store.py` as built by the extractor. -/
structure Entity where
  name : String
  type : String
  properties : List (String × Json)

/-- `Relation` dataclass of `graph_store.py` as built by the extractor. -/
structure Relation where
  source : String
  target : String
  type : String
  properties : List (String × Json)

/-- `ExtractionResult` dataclass of `entity_extractor.py`. -/
structure ExtractionResult where
  entities : List Entity
  relations : List Relation

/-- `self.entity_types` (`entity_extractor.py`, line 31). -/
def entityTypes : List String :=
  ["Person", "Organization", "Location", "Concept", "Event", "Product",
   "Technology"]

/-- `self.relation_types` (`entity_extractor.py`, line 32). -/
def relationTypes : List String :=
  ["WORKS_FOR", "LOCATED_IN", "RELATED_TO", "MENTIONS", "PART_OF",
   "CREATED_BY", "USES"]

/-- Python iteration over a decoded JSON value, as observed through the
`isinstance(item, dict)` guards of the parse loops: a list yields its items;
iterating a string or a dict yields strings, every one of which the guards
skip, so those cases are observably the empty iteration; any other value
raises `TypeError`, caught by the enclosing `except` (`none`). -/
def getIterable : Json → Option (List Json)
  | Json.arr items => some items
  | Json.str _ => some []
  | Json.obj _ => some []
  | _ => none

/-- `entity_data.get("type", "Concept")` followed by the vocabulary check
`if entity_type not in self.entity_types: entity_type = "Concept"`
(a non-string value is never in the string vocabulary). -/
def coerceEntityType (v : Option Json) : String :=
  match v with
  | some (Json.str t) => if t ∈ entityTypes then t else "Concept"
  | _ => "Concept"

/-- `rel_data.get("type", "RELATED_TO")` followed by the vocabulary check. -/
def coerceRelationType (v : Option Json) : String :=
  match v with
  | some (Json.str t) => if t ∈ relationTypes then t else "RELATED_TO"
  | _ => "RELATED_TO"

/-- The entity loop of `_parse_extraction_response` (lines 121-131).  The
boolean is `true` when the loop raised (`.strip()` on a non-string `name`:
`AttributeError`, caught by the enclosing `except`), in which case the
entities accumulated so far are what the function returns. -/
def processEntities : List Json → List Entity × Bool
  | [] => ([], false)
  | item :: rest =>
      match item with
      | Json.obj fields =>
          match dictGet? fields "name" with
          | none => processEntities rest
          | some (Json.str n) =>
              let e : Entity :=
                { name := pyStrip n, type := coerceEntityType (dictGet? fields "type"),
                  properties :=
                    [("description", (dictGet? fields "description").getD (Json.str ""))] }
              let r := processEntities rest
              (e :: r.1, r.2)
          | some _ => ([], true)
      | _ => processEntities rest

/-- The relation loop of `_parse_extraction_response` (lines 134-151):
`names` is the set of lower-cased extracted entity names; a relation is kept
only when both stripped endpoint names occur in it (case-insensitively).
The boolean is `true` when `.strip()` raised on a non-string endpoint. -/
def processRelations (names : List String) : List Json → List Relation × Bool
  | [] => ([], false)
  | item :: rest =>
      match item with
      | Json.obj fields =>
          match dictGet? fields "source", dictGet? fields "target" with
          | some (Json.str s), some (Json.str t) =>
              let src := pyStrip s
              let tgt := pyStrip t
              let rel : Relation :=
                { source := src, target := tgt,
                  type := coerceRelationType (dictGet? fields "type"),
                  properties :=
                    [("description", (dictGet? fields "description").getD (Json.str ""))] }
              let r := processRelations names rest
              if pyLower src ∈ names ∧ pyLower tgt ∈ names then
                (rel :: r.1, r.2)
              else r
          | some _, some _ => ([], true)
          | _, _ => processRelations names rest
      | _ => processRelations names rest

/-- The body of the `try` block of `_parse_extraction_response` applied to a
decoded JSON document: `data.get("entities", [])` / `data.get("relations",
[])` with the loop/abort semantics above.  A non-dict document makes
`data.get` raise `AttributeError` before anything accumulates. -/
def parseExtractionFrom (data : Json) : ExtractionResult :=
  match data with
  | Json.obj fields =>
      match getIterable ((dictGet? fields "entities").getD (Json.arr [])) with
      | none => { entities := [], relations := [] }
      | some entityItems =>
          let pe := processEntities entityItems
          if pe.2 then { entities := pe.1, relations := [] }
          else
            let names := pe.1.map (fun e => pyLower e.name)
            match getIterable ((dictGet? fields "relations").getD (Json.arr [])) with
            | none => { entities := pe.1, relations := [] }
            | some relationItems =>
                { entities := pe.1, relations := (processRelations names relationItems).1 }
  | _ => { entities := [], relations := [] }

/-- `EntityExtractor._parse_extraction_response` (lines 105-158): locate the
greedy first-brace-to-last-brace span, decode it as JSON, run the two parse
loops; every failure is absorbed into the returned value (the function never
raises). -/
def EntityExtractor.parse_extraction_response (content : String) :
    ExtractionResult :=
  match findJsonMatch content.toList with
  | none => { entities := [], relations := [] }
  | some span =>
      match Json.parse (String.mk span) with
      | none => { entities := [], relations := [] }
      | some data => parseExtractionFrom data

/-- The parse as the spec describes it (section 4.4), for comparison with
the code: identical except that the JSON span is the first *balanced* brace
block rather than the greedy first-brace-to-last-brace span. -/
def EntityExtractor.parse_extraction_response_specBalanced (content : String) :
    ExtractionResult :=
  match firstBalancedBlock content.toList with
  | none => { entities := [], relations := [] }
  | some span =>
      match Json.parse (String.mk span) with
      | none => { entities := [], relations := [] }
      | some data => parseExtractionFrom data

/-! ## Invariants used by the claims -/

/-- The four parallel lists of a vector-store collection have equal length:
every stored chunk index has an id, an embedding, a text and a metadata
entry. -/
def VCollection.wf (c : VCollection) : Prop :=
  c.ids.length = c.embeddings.length ∧ c.ids.length = c.documents.length ∧
  c.ids.length = c.metadatas.length

instance : DecidablePred VCollection.wf := fun c => by
  unfold VCollection.wf; infer_instance

/-- Every in-memory and every persisted collection of a `VectorStore` is
well-formed. -/
def VectorStore.wf (s : VectorStore) : Prop :=
  (∀ p ∈ s.collections, VCollection.wf p.2) ∧ (∀ p ∈ s.files, VCollection.wf p.2)

instance : DecidablePred VectorStore.wf := fun s => by
  unfold VectorStore.wf; infer_instance

/-- The `sources` list of the candidate stored under `key`, when present. -/
def sourcesAt (m : AllResults) (key : String) : Option (List String) :=
  (dictGet? m key).map (fun c => c.sources)

/-- How many results of a per-source hit list collide on `key`. -/
def mergeCount (new_results : List SearchHit) (key : String) : ℕ :=
  (new_results.filter (fun r => mergeKey r.text = key)).length

/-- The structural invariant of the `all_results` pool: the map has one
entry per key, and every candidate's per-source `ranks` and `scores` dicts
have one entry per source. -/
def poolInv (m : AllResults) : Prop :=
  (m.map Prod.fst).Nodup
  ∧ ∀ p ∈ m, ((p.2).ranks.map Prod.fst).Nodup
      ∧ ((p.2).scores.map Prod.fst).Nodup

/-- The three source tags `retrieve` merges under. -/
def sourceTags : List String := ["vector", "bm25", "graph"]

/-- Every pooled candidate records at least one source, and only the three
known source tags. -/
def sourcesOk (m : AllResults) : Prop :=
  ∀ p ∈ m, (p.2).sources ≠ [] ∧ ∀ s ∈ (p.2).sources, s ∈ sourceTags

/-! ## Lemmas on the stable sort -/

theorem mem_insertDescBy {α : Type} (key : α → ℚ) (x : α) (l : List α) (a : α) :
    a ∈ insertDescBy key x l ↔ a = x ∨ a ∈ l := by
  induction l with
  | nil => simp [insertDescBy]
  | cons y ys ih =>
      by_cases h : key y ≤ key x
      · simp [insertDescBy, h]
      · simp only [insertDescBy, h, if_false, List.mem_cons, ih]
        tauto

theorem pairwise_insertDescBy {α : Type} (key : α → ℚ) (x : α) (l : List α)
    (h : l.Pairwise (fun a b => key b ≤ key a)) :
    (insertDescBy key x l).Pairwise (fun a b => key b ≤ key a) := by
  induction l with
  | nil => simp [insertDescBy]
  | cons y ys ih =>
      rw [List.pairwise_cons] at h
      by_cases hxy : key y ≤ key x
      · rw [insertDescBy, if_pos hxy, List.pairwise_cons]
        refine ⟨?_, List.pairwise_cons.mpr h⟩
        intro b hb
        rcases List.mem_cons.mp hb with hb | hb
        · subst hb; exact hxy
        · exact le_trans (h.1 b hb) hxy
      · rw [insertDescBy, if_neg hxy, List.pairwise_cons]
        refine ⟨?_, ih h.2⟩
        intro b hb
        rcases (mem_insertDescBy key x ys b).mp hb with hb | hb
        · subst hb; exact le_of_not_le hxy
        · exact h.1 b hb

theorem sortDescBy_pairwise {α : Type} (key : α → ℚ) (l : List α) :
    (sortDescBy key l).Pairwise (fun a b => key b ≤ key a) := by
  induction l with
  | nil => simp [sortDescBy]
  | cons x xs ih => exact pairwise_insertDescBy key x _ ih

theorem mem_sortDescBy {α : Type} (key : α → ℚ) (l : List α) (a : α) :
    a ∈ sortDescBy key l ↔ a ∈ l := by
  induction l with
  | nil => simp [sortDescBy]
  | cons x xs ih =>
      rw [sortDescBy, mem_insertDescBy, ih, List.mem_cons]

theorem map_insertDescBy {α β : Type} (keyA : α → ℚ) (keyB : β → ℚ)
    (f : α → β) (hkey : ∀ a, keyB (f a) = keyA a) (x : α) (l : List α) :
    (insertDescBy keyA x l).map f = insertDescBy keyB (f x) (l.map f) := by
  induction l with
  | nil => simp [insertDescBy]
  | cons y ys ih =>
      by_cases h : keyA y ≤ keyA x
      · simp [insertDescBy, h, hkey]
      · simp [insertDescBy, h, hkey, ih]

theorem map_sortDescBy {α β : Type} (keyA : α → ℚ) (keyB : β → ℚ)
    (f : α → β) (hkey : ∀ a, keyB (f a) = keyA a) (l : List α) :
    (sortDescBy keyA l).map f = sortDescBy keyB (l.map f) := by
  induction l with
  | nil => simp [sortDescBy]
  | cons x xs ih =>
      rw [sortDescBy, List.map_cons, sortDescBy, ← ih,
        map_insertDescBy keyA keyB f hkey]

theorem sortDescBy_ne_nil {α : Type} (key : α → ℚ) (l : List α)
    (h : l ≠ []) : sortDescBy key l ≠ [] := by
  intro hcon
  rcases List.exists_mem_of_ne_nil l h with ⟨a, ha⟩
  have := (mem_sortDescBy key l a).mpr ha
  rw [hcon] at this
  exact absurd this (List.not_mem_nil a)

/-! ## Lemmas on the dict model -/

theorem dictGet?_dictSet_self {β : Type} (m : List (String × β)) (k : String)
    (v : β) : dictGet? (dictSet m k v) k = some v := by
  induction m with
  | nil => simp [dictSet, dictGet?]
  | cons p rest ih =>
      obtain ⟨pk, pv⟩ := p
      by_cases h : pk = k
      · simp [dictSet, h, dictGet?]
      · simp [dictSet, h, dictGet?, ih]

theorem dictGet?_dictSet_ne {β : Type} (m : List (String × β)) (k k' : String)
    (v : β) (h : k' ≠ k) : dictGet? (dictSet m k v) k' = dictGet? m k' := by
  induction m with
  | nil =>
      simp only [dictSet, dictGet?]
      rw [if_neg (Ne.symm h)]
  | cons p rest ih =>
      obtain ⟨pk, pv⟩ := p
      by_cases hp : pk = k
      · subst hp
        rw [dictSet, if_pos rfl, dictGet?, dictGet?,
          if_neg (fun hh : pk = k' => h hh.symm),
          if_neg (fun hh : pk = k' => h hh.symm)]
      · rw [dictSet, if_neg hp, dictGet?, dictGet?]
        by_cases hp' : pk = k'
        · rw [if_pos hp', if_pos hp']
        · rw [if_neg hp', if_neg hp', ih]

theorem dictGet?_eq_none_iff {β : Type} (m : List (String × β)) (k : String) :
    dictGet? m k = none ↔ k ∉ m.map Prod.fst := by
  induction m with
  | nil => simp [dictGet?]
  | cons p rest ih =>
      obtain ⟨pk, pv⟩ := p
      by_cases hp : pk = k
      · subst hp
        simp [dictGet?]
      · rw [dictGet?, if_neg hp]
        simp only [List.map_cons, List.mem_cons, ih]
        constructor
        · intro hnone hcon
          rcases hcon with hcon | hcon
          · exact hp hcon.symm
          · exact hnone hcon
        · intro hcon
          exact fun hm => hcon (Or.inr hm)

theorem dictGet?_append_right {β : Type} (m : List (String × β)) (k k' : String)
    (v : β) (h : dictGet? m k' = none) :
    dictGet? (m ++ [(k, v)]) k' = if k = k' then some v else none := by
  induction m with
  | nil => simp [dictGet?]
  | cons p rest ih =>
      obtain ⟨pk, pv⟩ := p
      rw [dictGet?] at h
      by_cases hp : pk = k'
      · rw [if_pos hp] at h; exact absurd h (by simp)
      · rw [if_neg hp] at h
        rw [List.cons_append, dictGet?, if_neg hp, ih h]

theorem dictGet?_eq_none_of_append {β : Type} (m : List (String × β))
    (k k' : String) (v : β) (h : dictGet? (m ++ [(k, v)]) k' = none) :
    dictGet? m k' = none := by
  induction m with
  | nil => simp [dictGet?]
  | cons p rest ih =>
      obtain ⟨pk, pv⟩ := p
      rw [List.cons_append, dictGet?] at h
      by_cases hp : pk = k'
      · rw [if_pos hp] at h; exact absurd h (by simp)
      · rw [if_neg hp] at h
        rw [dictGet?, if_neg hp]
        exact ih h

theorem dictSet_keys_of_mem {β : Type} (m : List (String × β)) (k : String)
    (v w : β) (h : dictGet? m k = some w) :
    (dictSet m k v).map Prod.fst = m.map Prod.fst := by
  induction m with
  | nil => simp [dictGet?] at h
  | cons p rest ih =>
      obtain ⟨pk, pv⟩ := p
      rw [dictGet?] at h
      by_cases hp : pk = k
      · subst hp
        rw [dictSet, if_pos rfl, List.map_cons, List.map_cons]
      · rw [if_neg hp] at h
        rw [dictSet, if_neg hp, List.map_cons, List.map_cons, ih h]

theorem dictSet_keys_of_none {β : Type} (m : List (String × β)) (k : String)
    (v : β) (h : dictGet? m k = none) :
    (dictSet m k v).map Prod.fst = m.map Prod.fst ++ [k] := by
  induction m with
  | nil => simp [dictSet]
  | cons p rest ih =>
      obtain ⟨pk, pv⟩ := p
      rw [dictGet?] at h
      by_cases hp : pk = k
      · rw [if_pos hp] at h; exact absurd h (by simp)
      · rw [if_neg hp] at h
        rw [dictSet, if_neg hp, List.map_cons, List.map_cons, ih h,
          List.cons_append]

theorem dictSet_keys_nodup {β : Type} (m : List (String × β)) (k : String)
    (v : β) (h : (m.map Prod.fst).Nodup) :
    ((dictSet m k v).map Prod.fst).Nodup := by
  cases hg : dictGet? m k with
  | none =>
      rw [dictSet_keys_of_none m k v hg]
      rw [List.nodup_append]
      refine ⟨h, List.nodup_singleton k, ?_⟩
      intro a ha hb
      rw [List.mem_singleton] at hb
      subst hb
      exact (dictGet?_eq_none_iff m a).mp hg ha
  | some w =>
      rw [dictSet_keys_of_mem m k v w hg]
      exact h

theorem dictGet?_of_mem_of_nodup {β : Type} (m : List (String × β))
    (p : String × β) (hp : p ∈ m) (h : (m.map Prod.fst).Nodup) :
    dictGet? m p.1 = some p.2 := by
  induction m with
  | nil => simp at hp
  | cons q rest ih =>
      obtain ⟨qk, qv⟩ := q
      rw [List.map_cons, List.nodup_cons] at h
      rcases List.mem_cons.mp hp with hp | hp
      · subst hp
        rw [dictGet?, if_pos rfl]
      · rw [dictGet?]
        by_cases hq : qk = p.1
        · exact absurd (hq ▸ List.mem_map.mpr ⟨p, hp, rfl⟩) h.1
        · rw [if_neg hq]
          exact ih hp h.2

theorem mem_of_dictGet? {β : Type} (m : List (String × β)) (k : String)
    (v : β) (h : dictGet? m k = some v) : (k, v) ∈ m := by
  induction m with
  | nil => simp [dictGet?] at h
  | cons p rest ih =>
      obtain ⟨pk, pv⟩ := p
      rw [dictGet?] at h
      by_cases hp : pk = k
      · rw [if_pos hp] at h
        injection h with h
        subst hp; subst h
        exact List.mem_cons_self _ _
      · rw [if_neg hp] at h
        exact List.mem_cons_of_mem _ (ih h)

theorem mem_dictSet {β : Type} (m : List (String × β)) (k : String) (v : β)
    (p : String × β) (hp : p ∈ dictSet m k v) :
    p = (k, v) ∨ p ∈ m := by
  induction m with
  | nil => simpa [dictSet] using hp
  | cons q rest ih =>
      obtain ⟨qk, qv⟩ := q
      by_cases hq : qk = k
      · rw [dictSet, if_pos hq] at hp
        rcases List.mem_cons.mp hp with hp | hp
        · exact Or.inl hp
        · exact Or.inr (List.mem_cons_of_mem _ hp)
      · rw [dictSet, if_neg hq] at hp
        rcases List.mem_cons.mp hp with hp | hp
        · exact Or.inr (hp ▸ List.mem_cons_self _ _)
        · rcases ih hp with hh | hh
          · exact Or.inl hh
          · exact Or.inr (List.mem_cons_of_mem _ hh)

theorem dictGet?_dictDel_ne {β : Type} (m : List (String × β)) (k k' : String)
    (h : k' ≠ k) (hnd : (m.map Prod.fst).Nodup) :
    dictGet? (dictDel m k) k' = dictGet? m k' := by
  induction m with
  | nil => simp [dictDel]
  | cons p rest ih =>
      obtain ⟨pk, pv⟩ := p
      rw [List.map_cons, List.nodup_cons] at hnd
      by_cases hp : pk = k
      · subst hp
        rw [dictDel, if_pos rfl, dictGet?,
          if_neg (fun hh : pk = k' => h hh.symm)]
      · rw [dictDel, if_neg hp, dictGet?, dictGet?]
        by_cases hp' : pk = k'
        · rw [if_pos hp', if_pos hp']
        · rw [if_neg hp', if_neg hp', ih hnd.2]

/-! ## Lemmas on `listMin` / `listMax` -/

theorem foldl_min_le_init (l : List ℚ) (a : ℚ) : l.foldl min a ≤ a := by
  induction l generalizing a with
  | nil => simp
  | cons x xs ih =>
      rw [List.foldl_cons]
      exact le_trans (ih (min a x)) (min_le_left a x)

theorem foldl_min_le_mem (l : List ℚ) (a x : ℚ) (hx : x ∈ l) :
    l.foldl min a ≤ x := by
  induction l generalizing a with
  | nil => simp at hx
  | cons y ys ih =>
      rw [List.foldl_cons]
      rcases List.mem_cons.mp hx with hx | hx
      · subst hx
        exact le_trans (foldl_min_le_init ys (min a x)) (min_le_right a x)
      · exact ih (min a y) hx

theorem foldl_min_mem_or (l : List ℚ) (a : ℚ) :
    l.foldl min a = a ∨ l.foldl min a ∈ l := by
  induction l generalizing a with
  | nil => simp
  | cons x xs ih =>
      rw [List.foldl_cons]
      rcases ih (min a x) with h | h
      · rcases min_cases a x with ⟨hm, _⟩ | ⟨hm, _⟩
        · exact Or.inl (h.trans hm)
        · exact Or.inr (List.mem_cons.mpr (Or.inl (h.trans hm)))
      · exact Or.inr (List.mem_cons.mpr (Or.inr h))

theorem foldl_max_init_le (l : List ℚ) (a : ℚ) : a ≤ l.foldl max a := by
  induction l generalizing a with
  | nil => simp
  | cons x xs ih =>
      rw [List.foldl_cons]
      exact le_trans (le_max_left a x) (ih (max a x))

theorem foldl_max_mem_le (l : List ℚ) (a x : ℚ) (hx : x ∈ l) :
    x ≤ l.foldl max a := by
  induction l generalizing a with
  | nil => simp at hx
  | cons y ys ih =>
      rw [List.foldl_cons]
      rcases List.mem_cons.mp hx with hx | hx
      · subst hx
        exact le_trans (le_max_right a x) (foldl_max_init_le ys (max a x))
      · exact ih (max a y) hx

theorem foldl_max_mem_or (l : List ℚ) (a : ℚ) :
    l.foldl max a = a ∨ l.foldl max a ∈ l := by
  induction l generalizing a with
  | nil => simp
  | cons x xs ih =>
      rw [List.foldl_cons]
      rcases ih (max a x) with h | h
      · rcases max_cases a x with ⟨hm, _⟩ | ⟨hm, _⟩
        · exact Or.inl (h.trans hm)
        · exact Or.inr (List.mem_cons.mpr (Or.inl (h.trans hm)))
      · exact Or.inr (List.mem_cons.mpr (Or.inr h))

theorem listMin_le (l : List ℚ) (x : ℚ) (hx : x ∈ l) : listMin l ≤ x := by
  cases l with
  | nil => simp at hx
  | cons y ys =>
      rw [listMin]
      rcases List.mem_cons.mp hx with hx | hx
      · subst hx; exact foldl_min_le_init ys x
      · exact foldl_min_le_mem ys y x hx

theorem le_listMax (l : List ℚ) (x : ℚ) (hx : x ∈ l) : x ≤ listMax l := by
  cases l with
  | nil => simp at hx
  | cons y ys =>
      rw [listMax]
      rcases List.mem_cons.mp hx with hx | hx
      · subst hx; exact foldl_max_init_le ys x
      · exact foldl_max_mem_le ys y x hx

theorem listMin_mem (l : List ℚ) (h : l ≠ []) : listMin l ∈ l := by
  cases l with
  | nil => exact absurd rfl h
  | cons y ys =>
      rw [listMin]
      rcases foldl_min_mem_or ys y with hh | hh
      · exact List.mem_cons.mpr (Or.inl hh)
      · exact List.mem_cons.mpr (Or.inr hh)

theorem listMax_mem (l : List ℚ) (h : l ≠ []) : listMax l ∈ l := by
  cases l with
  | nil => exact absurd rfl h
  | cons y ys =>
      rw [listMax]
      rcases foldl_max_mem_or ys y with hh | hh
      · exact List.mem_cons.mpr (Or.inl hh)
      · exact List.mem_cons.mpr (Or.inr hh)

theorem mem_zip_right_of_length_eq {α β : Type} (l1 : List α) (l2 : List β)
    (hlen : l1.length = l2.length) (b : β) (hb : b ∈ l2) :
    ∃ a, (a, b) ∈ l1.zip l2 := by
  induction l2 generalizing l1 with
  | nil => simp at hb
  | cons y ys ih =>
      cases l1 with
      | nil => simp at hlen
      | cons x xs =>
          rcases List.mem_cons.mp hb with hb | hb
          · exact ⟨x, by simp [hb]⟩
          · rcases ih xs (by simpa using hlen) hb with ⟨a, ha⟩
            exact ⟨a, List.mem_cons.mpr (Or.inr ha)⟩

/-- Sortedness of a truncated descending sort, read off on the keys. -/
theorem sortDescBy_take_map_pairwise {α : Type} (key : α → ℚ) (l : List α)
    (n : ℕ) :
    (((sortDescBy key l).take n).map key).Pairwise (fun a b => b ≤ a) := by
  rw [List.pairwise_map]
  exact List.Pairwise.sublist (List.take_sublist n _) (sortDescBy_pairwise key l)

/-! ## C4 — reranker fallback -/

/-- C4: For every query and non-empty candidate list, if the cross-encoder
model is unavailable (`available = false`) or raises during scoring
(`predict = none`), `rerank` never raises to the caller (it is a total
function into plain lists) and returns the input candidates sorted in
non-increasing order of their pre-existing fusion score, truncated to the
top `k`. -/
theorem c4_rerank_fallback (available useReranker : Bool) (query : String)
    (documents : List RerankDoc) (top_k : ℕ) (predict : Option (List ℚ))
    (hne : documents ≠ [])
    (hfail : available = false ∨ predict = none) :
    Reranker.rerank available useReranker query documents top_k predict =
      ((sortDescBy (fun d => d.score) documents).map fallbackRanked).take top_k
    ∧ ((Reranker.rerank available useReranker query documents top_k
        predict).map (fun r => r.rerank_score)).Pairwise (fun a b => b ≤ a) := by
  have heq : Reranker.rerank available useReranker query documents top_k predict =
      (sortDescBy (fun r => r.rerank_score) (documents.map fallbackRanked)).take top_k := by
    rcases hfail with h | h
    · subst h
      rw [Reranker.rerank.eq_def, if_neg hne, if_pos (by simp)]
    · subst h
      cases available <;> cases useReranker <;> simp [Reranker.rerank, hne]
  constructor
  · rw [heq,
      map_sortDescBy (fun d => d.score) (fun r => r.rerank_score)
        fallbackRanked (fun d => rfl) documents]
  · rw [heq]
    exact sortDescBy_take_map_pairwise (fun (r : RankedResult) => r.rerank_score)
      _ top_k

/-- Witness for C4 at a concrete input: two candidates with fusion scores 2
and 5, model unavailable, `k = 2`. -/
theorem c4_rerank_fallback_witness :
    ([RerankDoc.mk "a" [] 2 "vector", RerankDoc.mk "b" [] 5 "bm25"] :
      List RerankDoc) ≠ []
    ∧ (Reranker.rerank false true "q"
        [RerankDoc.mk "a" [] 2 "vector", RerankDoc.mk "b" [] 5 "bm25"] 2
        (some [1, 2]) =
      ((sortDescBy (fun d => d.score)
        [RerankDoc.mk "a" [] 2 "vector", RerankDoc.mk "b" [] 5 "bm25"]).map
          fallbackRanked).take 2
      ∧ ((Reranker.rerank false true "q"
          [RerankDoc.mk "a" [] 2 "vector", RerankDoc.mk "b" [] 5 "bm25"] 2
          (some [1, 2])).map (fun r => r.rerank_score)).Pairwise
            (fun a b => b ≤ a)) :=
  ⟨by simp,
    c4_rerank_fallback false true "q"
      [RerankDoc.mk "a" [] 2 "vector", RerankDoc.mk "b" [] 5 "bm25"] 2
      (some [1, 2]) (by simp) (Or.inl rfl)⟩

/-! ## C6 — min-max normalization in the reranker -/

/-- C6 counterexample: with two candidates both given raw cross-encoder
score 5 (all raw scores equal), the output scores are `[0, 0]`: the
normalization step is *not* skipped — `score_range` is set to `1` and every
candidate gets `raw - min = 0`, not its raw score `5`. -/
theorem c6_counterexample :
    (Reranker.rerank true true "q"
      [RerankDoc.mk "a" [] 1 "vector", RerankDoc.mk "b" [] 2 "bm25"] 2
      (some [5, 5])).map (fun r => r.rerank_score) = [0, 0]
    ∧ ¬ (∀ r ∈ Reranker.rerank true true "q"
        [RerankDoc.mk "a" [] 1 "vector", RerankDoc.mk "b" [] 2 "bm25"] 2
        (some [5, 5]), r.rerank_score = 5) := by
  have heq : (Reranker.rerank true true "q"
      [RerankDoc.mk "a" [] 1 "vector", RerankDoc.mk "b" [] 2 "bm25"] 2
      (some [5, 5])).map (fun r => r.rerank_score) = [0, 0] := by
    norm_num [Reranker.rerank, rerankNormalized, listMin, listMax, sortDescBy,
      insertDescBy, List.cons_ne_nil]
  refine ⟨heq, ?_⟩
  intro hcon
  have h0 : (0 : ℚ) ∈ (Reranker.rerank true true "q"
      [RerankDoc.mk "a" [] 1 "vector", RerankDoc.mk "b" [] 2 "bm25"] 2
      (some [5, 5])).map (fun r => r.rerank_score) := by
    rw [heq]; simp
  rcases List.mem_map.mp h0 with ⟨r, hr, hr0⟩
  rw [hcon r hr] at hr0
  norm_num at hr0

/-- C6 (amended): when cross-encoder scoring succeeds, every normalized
score lies in `[0, 1]`; when the raw scores are not all equal, some
candidate's normalized score is `0` and some candidate's is `1`; when they
are all equal, the divide-by-zero guard sets `score_range = 1`, so every
candidate's score becomes `raw - min = 0` (not its raw score); the output is
the normalized batch sorted descending and truncated to `k`. -/
theorem c6_rerank_normalization (query : String) (documents : List RerankDoc)
    (top_k : ℕ) (scores : List ℚ) (hne : documents ≠ [])
    (hlen : scores.length = documents.length) :
    (∀ r ∈ rerankNormalized documents scores,
        0 ≤ r.rerank_score ∧ r.rerank_score ≤ 1)
    ∧ (listMax scores ≠ listMin scores →
        (∃ r ∈ rerankNormalized documents scores, r.rerank_score = 0)
        ∧ (∃ r ∈ rerankNormalized documents scores, r.rerank_score = 1))
    ∧ (listMax scores = listMin scores →
        ∀ r ∈ rerankNormalized documents scores, r.rerank_score = 0)
    ∧ Reranker.rerank true true query documents top_k (some scores) =
        (sortDescBy (fun r => r.rerank_score)
          (rerankNormalized documents scores)).take top_k
    ∧ ((Reranker.rerank true true query documents top_k (some scores)).map
        (fun r => r.rerank_score)).Pairwise (fun a b => b ≤ a) := by
  have hsne : scores ≠ [] := by
    intro hcon
    subst hcon
    cases documents with
    | nil => exact hne rfl
    | cons d ds => simp at hlen
  have hminmax : listMin scores ≤ listMax scores := by
    rcases List.exists_mem_of_ne_nil scores hsne with ⟨s, hs⟩
    exact le_trans (listMin_le scores s hs) (le_listMax scores s hs)
  have hmem : ∀ r ∈ rerankNormalized documents scores, ∃ s ∈ scores,
      r.rerank_score = (s - listMin scores) /
        (if listMax scores ≠ listMin scores
         then listMax scores - listMin scores else 1) := by
    intro r hr
    simp only [rerankNormalized, List.mem_map] at hr
    rcases hr with ⟨p, hp, hpr⟩
    exact ⟨p.2, (List.of_mem_zip hp).2, by rw [← hpr]⟩
  have heq : Reranker.rerank true true query documents top_k (some scores) =
      (sortDescBy (fun r => r.rerank_score)
        (rerankNormalized documents scores)).take top_k := by
    cases scores with
    | nil => exact absurd rfl hsne
    | cons s0 rest => simp [Reranker.rerank, hne]
  refine ⟨?_, ?_, ?_, heq, ?_⟩
  · intro r hr
    rcases hmem r hr with ⟨s, hs, hscore⟩
    by_cases hd : listMax scores = listMin scores
    · have hsmin : s = listMin scores :=
        le_antisymm (hd ▸ le_listMax scores s hs) (listMin_le scores s hs)
      rw [hscore, if_neg (fun hcon => hcon hd), hsmin]
      norm_num
    · have hpos : 0 < listMax scores - listMin scores :=
        sub_pos.mpr (lt_of_le_of_ne hminmax (fun hmm => hd hmm.symm))
      rw [hscore, if_pos hd]
      constructor
      · exact div_nonneg (sub_nonneg.mpr (listMin_le scores s hs)) (le_of_lt hpos)
      · exact (div_le_one hpos).mpr
          (sub_le_sub_right (le_listMax scores s hs) (listMin scores))
  · intro hd
    have hpos : 0 < listMax scores - listMin scores :=
      sub_pos.mpr (lt_of_le_of_ne hminmax (fun hmm => hd hmm.symm))
    constructor
    · rcases mem_zip_right_of_length_eq documents scores hlen.symm
        (listMin scores) (listMin_mem scores hsne) with ⟨d, hd2⟩
      refine ⟨_, List.mem_map.mpr ⟨(d, listMin scores), hd2, rfl⟩, ?_⟩
      simp
    · rcases mem_zip_right_of_length_eq documents scores hlen.symm
        (listMax scores) (listMax_mem scores hsne) with ⟨d, hd2⟩
      refine ⟨_, List.mem_map.mpr ⟨(d, listMax scores), hd2, rfl⟩, ?_⟩
      simp only
      rw [if_pos hd]
      exact div_self (ne_of_gt hpos)
  · intro hd r hr
    rcases hmem r hr with ⟨s, hs, hscore⟩
    have hsmin : s = listMin scores :=
      le_antisymm (hd ▸ le_listMax scores s hs) (listMin_le scores s hs)
    rw [hscore, if_neg (fun hcon => hcon hd), hsmin]
    norm_num
  · rw [heq]
    exact sortDescBy_take_map_pairwise (fun (r : RankedResult) => r.rerank_score)
      _ top_k

/-- Witness for C6 at a concrete input: raw cross-encoder scores `[3, 7]`
over two candidates. -/
theorem c6_rerank_normalization_witness :
    (∀ r ∈ rerankNormalized
        [RerankDoc.mk "a" [] 1 "vector", RerankDoc.mk "b" [] 2 "bm25"]
        [3, 7], 0 ≤ r.rerank_score ∧ r.rerank_score ≤ 1)
    ∧ (listMax [3, 7] ≠ listMin [3, 7] →
        (∃ r ∈ rerankNormalized
            [RerankDoc.mk "a" [] 1 "vector", RerankDoc.mk "b" [] 2 "bm25"]
            [3, 7], r.rerank_score = 0)
        ∧ (∃ r ∈ rerankNormalized
            [RerankDoc.mk "a" [] 1 "vector", RerankDoc.mk "b" [] 2 "bm25"]
            [3, 7], r.rerank_score = 1))
    ∧ (listMax [3, 7] = listMin [3, 7] →
        ∀ r ∈ rerankNormalized
            [RerankDoc.mk "a" [] 1 "vector", RerankDoc.mk "b" [] 2 "bm25"]
            [3, 7], r.rerank_score = 0)
    ∧ Reranker.rerank true true "q"
        [RerankDoc.mk "a" [] 1 "vector", RerankDoc.mk "b" [] 2 "bm25"] 2
        (some [3, 7]) =
        (sortDescBy (fun r => r.rerank_score)
          (rerankNormalized
            [RerankDoc.mk "a" [] 1 "vector", RerankDoc.mk "b" [] 2 "bm25"]
            [3, 7])).take 2
    ∧ ((Reranker.rerank true true "q"
        [RerankDoc.mk "a" [] 1 "vector", RerankDoc.mk "b" [] 2 "bm25"] 2
        (some [3, 7])).map (fun r => r.rerank_score)).Pairwise
          (fun a b => b ≤ a) :=
  c6_rerank_normalization "q"
    [RerankDoc.mk "a" [] 1 "vector", RerankDoc.mk "b" [] 2 "bm25"] 2 [3, 7]
    (by simp) (by simp)

/-! ## C1 — reciprocal rank fusion -/

/-- C1: For every merged candidate pool, RRF fusion assigns each candidate
the score `rrfScore`, i.e. the sum over its contributing sources (the keys
of its per-source rank dict) of `1 / (rrf_k + rank_in_that_source)`, with
the configured `settings.rrf_k` defaulting to `60`; every output pair is a
scored pooled candidate; and for non-empty pools the output is sorted
non-increasing by `rrf_score`. -/
theorem c1_rrf_fusion (rrfK : ℕ) (all_results : AllResults)
    (hne : all_results ≠ []) :
    (∀ p ∈ HybridRetriever.rrf_fusion rrfK all_results,
        p.2 = rrfScore rrfK p.1 ∧ p.1 ∈ all_results.map Prod.snd)
    ∧ ((HybridRetriever.rrf_fusion rrfK all_results).map
        (fun p => p.2)).Pairwise (fun a b => b ≤ a)
    ∧ HybridRetriever.rrf_fusion rrfK all_results ≠ []
    ∧ settings.rrf_k = 60 := by
  refine ⟨?_, ?_, ?_, rfl⟩
  · intro p hp
    rw [HybridRetriever.rrf_fusion, mem_sortDescBy] at hp
    rcases List.mem_map.mp hp with ⟨q, hq, hqp⟩
    subst hqp
    exact ⟨rfl, List.mem_map.mpr ⟨q, hq, rfl⟩⟩
  · rw [HybridRetriever.rrf_fusion, List.pairwise_map]
    exact sortDescBy_pairwise _ _
  · rw [HybridRetriever.rrf_fusion]
    apply sortDescBy_ne_nil
    intro hcon
    rw [List.map_eq_nil_iff] at hcon
    exact hne hcon

/-- Witness for C1 at a concrete pool: two candidates, one seen by `vector`
(rank 1) and `graph` (rank 2), one seen by `bm25` (rank 1). -/
theorem c1_rrf_fusion_witness :
    (∀ p ∈ HybridRetriever.rrf_fusion 60
        [("key one", Candidate.mk "t1" [] ["vector", "graph"]
            [("vector", 1), ("graph", 2)] [] []),
         ("key two", Candidate.mk "t2" [] ["bm25"] [("bm25", 1)] [] [])],
        p.2 = rrfScore 60 p.1
        ∧ p.1 ∈ ([("key one", Candidate.mk "t1" [] ["vector", "graph"]
            [("vector", 1), ("graph", 2)] [] []),
           ("key two", Candidate.mk "t2" [] ["bm25"] [("bm25", 1)] [] [])] :
             AllResults).map Prod.snd)
    ∧ ((HybridRetriever.rrf_fusion 60
        [("key one", Candidate.mk "t1" [] ["vector", "graph"]
            [("vector", 1), ("graph", 2)] [] []),
         ("key two", Candidate.mk "t2" [] ["bm25"] [("bm25", 1)] [] [])]).map
        (fun p => p.2)).Pairwise (fun a b => b ≤ a)
    ∧ HybridRetriever.rrf_fusion 60
        [("key one", Candidate.mk "t1" [] ["vector", "graph"]
            [("vector", 1), ("graph", 2)] [] []),
         ("key two", Candidate.mk "t2" [] ["bm25"] [("bm25", 1)] [] [])] ≠ []
    ∧ settings.rrf_k = 60 :=
  c1_rrf_fusion 60
    [("key one", Candidate.mk "t1" [] ["vector", "graph"]
        [("vector", 1), ("graph", 2)] [] []),
     ("key two", Candidate.mk "t2" [] ["bm25"] [("bm25", 1)] [] [])]
    (by simp)

/-! ## C8 — cosine similarity on zero-norm vectors -/

theorem normSq_nonneg (v : List ℚ) : 0 ≤ normSq v := by
  induction v with
  | nil => simp [normSq]
  | cons a rest ih =>
      rw [normSq, List.map_cons, List.sum_cons]
      exact add_nonneg (mul_self_nonneg a) ih

theorem normSq_eq_zero_iff (v : List ℚ) : normSq v = 0 ↔ ∀ x ∈ v, x = 0 := by
  induction v with
  | nil => simp [normSq]
  | cons a rest ih =>
      rw [normSq, List.map_cons, List.sum_cons,
        show ((List.map (fun x => x * x) rest).sum = normSq rest) from rfl,
        add_eq_zero_iff_of_nonneg (mul_self_nonneg a) (normSq_nonneg rest),
        mul_self_eq_zero, ih]
      constructor
      · rintro ⟨ha, hrest⟩ x hx
        rcases List.mem_cons.mp hx with hx | hx
        · exact hx ▸ ha
        · exact hrest x hx
      · intro h
        exact ⟨h a (List.mem_cons_self a rest),
          fun x hx => h x (List.mem_cons_of_mem a hx)⟩

/-- C8: a vector has zero norm exactly when all its entries are zero; if
either input vector has zero norm, `_cosine_similarity` evaluates to `0`
through the guard; the division branch is reached only when both norms are
non-zero, and there its denominator `norm1 * norm2` is non-zero — no
division by zero occurs.  `sqrtf` is any model of `math.sqrt`
(characterized on these non-negative inputs by `sqrtf x = 0 ↔ x = 0`). -/
theorem c8_cosine_zero_norm (sqrtf : ℚ → ℚ)
    (hsqrt : ∀ x, sqrtf x = 0 ↔ x = 0) (vec1 vec2 : List ℚ) :
    (normSq vec1 = 0 ↔ ∀ x ∈ vec1, x = 0)
    ∧ ((normSq vec1 = 0 ∨ normSq vec2 = 0) →
        VectorStore.cosine_similarity sqrtf vec1 vec2 = 0)
    ∧ (VectorStore.cosineDivisionReached sqrtf vec1 vec2 = true →
        normSq vec1 ≠ 0 ∧ normSq vec2 ≠ 0
        ∧ sqrtf (normSq vec1) * sqrtf (normSq vec2) ≠ 0) := by
  refine ⟨normSq_eq_zero_iff vec1, ?_, ?_⟩
  · intro h
    rw [VectorStore.cosine_similarity]
    rcases h with h | h
    · rw [if_pos (Or.inl ((hsqrt (normSq vec1)).mpr h))]
    · rw [if_pos (Or.inr ((hsqrt (normSq vec2)).mpr h))]
  · intro h
    rw [VectorStore.cosineDivisionReached, decide_eq_true_eq] at h
    push_neg at h
    exact ⟨fun hcon => h.1 ((hsqrt _).mpr hcon),
      fun hcon => h.2 ((hsqrt _).mpr hcon),
      mul_ne_zero h.1 h.2⟩

/-- Witness for C8 at concrete vectors `[0, 0]` and `[1]`, with the identity
function standing in for `math.sqrt` (it satisfies the zero
characterization). -/
theorem c8_cosine_zero_norm_witness :
    (normSq [0, 0] = 0 ↔ ∀ x ∈ ([0, 0] : List ℚ), x = 0)
    ∧ ((normSq [0, 0] = 0 ∨ normSq [1] = 0) →
        VectorStore.cosine_similarity (fun q => q) [0, 0] [1] = 0)
    ∧ (VectorStore.cosineDivisionReached (fun q => q) [0, 0] [1] = true →
        normSq [0, 0] ≠ 0 ∧ normSq [1] ≠ 0
        ∧ (fun (q : ℚ) => q) (normSq [0, 0]) * (fun (q : ℚ) => q) (normSq [1]) ≠ 0) :=
  c8_cosine_zero_norm (fun q => q) (fun _ => Iff.rfl) [0, 0] [1]

/-! ## C7 — BM25 search returns only strictly positive scores -/

/-- C7: For every store state, collection and query, every result returned
by `BM25Store.search` has a strictly positive score, whatever per-document
scores the (external) Okapi scoring function produces — non-positive scores
are filtered out; and the scoring input is the tokenized query, every token
of which is a lower-cased word-character run of length `> 1`. -/
theorem c7_bm25_positive (store : BM25Store) (notebook_id query : String)
    (top_k : ℕ) (getScores : List String → List ℚ) :
    (∀ r ∈ (BM25Store.search store notebook_id query top_k getScores).2,
        0 < r.score)
    ∧ (∀ t ∈ BM25Store.tokenize query, 1 < t.length) := by
  constructor
  · intro r hr
    simp only [BM25Store.search] at hr
    split at hr
    · simp at hr
    · split at hr
      · simp at hr
      · simp only [List.mem_filterMap] at hr
        rcases hr with ⟨p, hp, hfp⟩
        by_cases hpos : 0 < p.2
        · rw [if_pos hpos] at hfp
          split at hfp
          · injection hfp with hfp
            rw [← hfp]
            exact hpos
          · exact absurd hfp (by simp)
        · rw [if_neg hpos] at hfp
          exact absurd hfp (by simp)
  · intro t ht
    rw [BM25Store.tokenize, List.mem_filter] at ht
    exact of_decide_eq_true ht.2

/-! ## C9 — the four parallel lists stay aligned -/

theorem mem_dictDel {β : Type} (m : List (String × β)) (k : String)
    (p : String × β) (hp : p ∈ dictDel m k) : p ∈ m := by
  induction m with
  | nil => simp [dictDel] at hp
  | cons q rest ih =>
      obtain ⟨qk, qv⟩ := q
      by_cases hq : qk = k
      · rw [dictDel, if_pos hq] at hp
        exact List.mem_cons_of_mem _ hp
      · rw [dictDel, if_neg hq] at hp
        rcases List.mem_cons.mp hp with hp | hp
        · exact hp ▸ List.mem_cons_self _ _
        · exact List.mem_cons_of_mem _ (ih hp)

theorem dictSet_eq_append_of_none {β : Type} (m : List (String × β))
    (k : String) (v : β) (h : dictGet? m k = none) :
    dictSet m k v = m ++ [(k, v)] := by
  induction m with
  | nil => simp [dictSet]
  | cons p rest ih =>
      obtain ⟨pk, pv⟩ := p
      rw [dictGet?] at h
      by_cases hp : pk = k
      · rw [if_pos hp] at h; exact absurd h (by simp)
      · rw [if_neg hp] at h
        rw [dictSet, if_neg hp, ih h, List.cons_append]

theorem length_eraseIdx_eq {α : Type} (l : List α) (i : ℕ) :
    (l.eraseIdx i).length = if i < l.length then l.length - 1 else l.length := by
  induction l generalizing i with
  | nil => simp [List.eraseIdx]
  | cons x xs ih =>
      cases i with
      | zero => simp [List.eraseIdx]
      | succ j =>
          rw [List.eraseIdx, List.length_cons, List.length_cons, ih]
          by_cases hj : j < xs.length
          · rw [if_pos hj, if_pos (by omega)]
            omega
          · rw [if_neg hj, if_neg (by omega)]

theorem wf_collection_of_get (s : VectorStore) (hs : s.wf)
    (name : String) (c : VCollection)
    (hc : dictGet? s.collections name = some c) : c.wf :=
  hs.1 (name, c) (mem_of_dictGet? s.collections name c hc)

theorem wf_dictSet_store (s : VectorStore) (name : String) (c : VCollection)
    (hs : s.wf) (hc : c.wf) :
    (VectorStore.mk (dictSet s.collections name c)
      (dictSet s.files name c)).wf := by
  constructor
  · intro p hp
    rcases mem_dictSet s.collections name c p hp with h | h
    · rw [h]; exact hc
    · exact hs.1 p h
  · intro p hp
    rcases mem_dictSet s.files name c p hp with h | h
    · rw [h]; exact hc
    · exact hs.2 p h

theorem wf_emptyCollection (notebook_id : String) :
    (VectorStore.emptyCollection notebook_id).wf := by
  constructor <;> simp [VectorStore.emptyCollection]

theorem wf_get_or_create (s : VectorStore) (notebook_id : String)
    (hs : s.wf) : ((VectorStore.get_or_create_collection s notebook_id).2).wf := by
  rw [VectorStore.get_or_create_collection]
  cases hg : dictGet? s.collections (VectorStore.collectionName notebook_id) with
  | some c => exact hs
  | none =>
      exact wf_dictSet_store s (VectorStore.collectionName notebook_id)
        (VectorStore.emptyCollection notebook_id) hs
        (wf_emptyCollection notebook_id)

theorem wf_getD_collection (s : VectorStore) (hs : s.wf) (name nb : String) :
    ((dictGet? s.collections name).getD (VectorStore.emptyCollection nb)).wf := by
  cases hg : dictGet? s.collections name with
  | none => simpa using wf_emptyCollection nb
  | some c =>
      simpa using hs.1 (name, c) (mem_of_dictGet? s.collections name c hg)

/-- The per-index erase step of `delete_document` keeps the four lists
aligned. -/
theorem wf_foldl_eraseIdx (idxs : List ℕ) (c : VCollection) (hc : c.wf) :
    (idxs.foldl
      (fun (c : VCollection) i =>
        { ids := c.ids.eraseIdx i, embeddings := c.embeddings.eraseIdx i,
          documents := c.documents.eraseIdx i,
          metadatas := c.metadatas.eraseIdx i,
          notebook_id := c.notebook_id }) c).wf := by
  induction idxs generalizing c with
  | nil => exact hc
  | cons i rest ih =>
      rw [List.foldl_cons]
      apply ih
      rcases hc with ⟨h1, h2, h3⟩
      refine ⟨?_, ?_, ?_⟩ <;>
        simp only [length_eraseIdx_eq, ← h1, ← h2, ← h3]

/-- C9: every `VectorStore` operation — `add_documents`, `query`,
`delete_document`, `delete_notebook` — preserves the invariant that within
each collection (in memory and on disk) the four parallel lists `ids`,
`embeddings`, `documents`, `metadatas` have equal length. -/
theorem c9_vector_store_wf (store : VectorStore) (notebook_id document_id : String)
    (texts : List String) (embeddings : List (List ℚ))
    (metadatas : List (List (String × String))) (query_embedding : List ℚ)
    (top_k : ℕ) (sqrtf : ℚ → ℚ) (hs : store.wf) :
    (VectorStore.add_documents store notebook_id document_id texts embeddings
      metadatas).wf
    ∧ ((VectorStore.query store notebook_id query_embedding top_k sqrtf).1).wf
    ∧ (VectorStore.delete_document store notebook_id document_id).wf
    ∧ (VectorStore.delete_notebook store notebook_id).wf := by
  have hstore1 : ∀ nb : String,
      ((VectorStore.get_or_create_collection store nb).2).wf :=
    fun nb => wf_get_or_create store nb hs
  refine ⟨?_, ?_, ?_, ?_⟩
  · -- add_documents
    rw [VectorStore.add_documents]
    apply wf_dictSet_store _ _ _ (hstore1 notebook_id)
    have hcoll := wf_getD_collection _ (hstore1 notebook_id)
      (VectorStore.get_or_create_collection store notebook_id).1 notebook_id
    rcases hcoll with ⟨h1, h2, h3⟩
    refine ⟨?_, ?_, ?_⟩ <;>
      simp only [List.length_append, List.length_map, List.enum_length,
        ← h1, ← h2, ← h3]
  · -- query
    rw [VectorStore.query]
    split
    · exact hstore1 notebook_id
    · exact hstore1 notebook_id
  · -- delete_document
    rw [VectorStore.delete_document]
    apply wf_dictSet_store _ _ _ (hstore1 notebook_id)
    exact wf_foldl_eraseIdx _ _ (wf_getD_collection _ (hstore1 notebook_id) _ _)
  · -- delete_notebook
    rw [VectorStore.delete_notebook]
    cases hg : dictGet? store.collections (VectorStore.collectionName notebook_id) with
    | some c =>
        constructor
        · intro p hp
          exact hs.1 p (mem_dictDel _ _ p hp)
        · intro p hp
          exact hs.2 p (mem_dictDel _ _ p hp)
    | none => exact hs

/-- Witness for C9: the empty store (trivially well-formed) with a one-chunk
insertion. -/
theorem c9_vector_store_wf_witness :
    (VectorStore.add_documents (VectorStore.mk [] []) "nb1" "doc1" ["t"]
      [[1, 2]] [[("filename", "f")]]).wf
    ∧ ((VectorStore.query (VectorStore.mk [] []) "nb1" [1, 0] 3 (fun q => q)).1).wf
    ∧ (VectorStore.delete_document (VectorStore.mk [] []) "nb1" "doc1").wf
    ∧ (VectorStore.delete_notebook (VectorStore.mk [] []) "nb1").wf :=
  c9_vector_store_wf (VectorStore.mk [] []) "nb1" "doc1" ["t"] [[1, 2]]
    [[("filename", "f")]] [1, 0] 3 (fun q => q)
    ⟨fun p hp => absurd hp (List.not_mem_nil p),
     fun p hp => absurd hp (List.not_mem_nil p)⟩

/-! ## C10 — querying a missing collection creates it -/

/-- C10: querying a notebook with no existing collection is not read-only:
`VectorStore.query` (and likewise `BM25Store.search`) appends a fresh empty
collection for that notebook to the in-memory map and persists it (for BM25
also recording an absent index), returns empty results, and leaves every
other collection, index entry and file unchanged. -/
theorem c10_query_creates_collection (vstore : VectorStore) (bstore : BM25Store)
    (nb query : String) (query_embedding : List ℚ) (top_k : ℕ)
    (sqrtf : ℚ → ℚ) (getScores : List String → List ℚ)
    (hv : dictGet? vstore.collections (VectorStore.collectionName nb) = none)
    (hb : dictGet? bstore.collections (BM25Store.collectionName nb) = none) :
    (VectorStore.query vstore nb query_embedding top_k sqrtf).1 =
      VectorStore.mk
        (vstore.collections ++ [(VectorStore.collectionName nb,
          VectorStore.emptyCollection nb)])
        (dictSet vstore.files (VectorStore.collectionName nb)
          (VectorStore.emptyCollection nb))
    ∧ (VectorStore.query vstore nb query_embedding top_k sqrtf).2 =
        VQueryResult.mk [] [] []
    ∧ (∀ other, other ≠ VectorStore.collectionName nb →
        dictGet? ((VectorStore.query vstore nb query_embedding top_k
            sqrtf).1).collections other = dictGet? vstore.collections other
        ∧ dictGet? ((VectorStore.query vstore nb query_embedding top_k
            sqrtf).1).files other = dictGet? vstore.files other)
    ∧ (BM25Store.search bstore nb query top_k getScores).1 =
      BM25Store.mk
        (bstore.collections ++ [(BM25Store.collectionName nb,
          BM25Store.emptyCollection nb)])
        (dictSet bstore.indexes (BM25Store.collectionName nb) false)
        (dictSet bstore.files (BM25Store.collectionName nb)
          (BM25Store.emptyCollection nb))
    ∧ (BM25Store.search bstore nb query top_k getScores).2 = []
    ∧ (∀ other, other ≠ BM25Store.collectionName nb →
        dictGet? ((BM25Store.search bstore nb query top_k
            getScores).1).collections other = dictGet? bstore.collections other
        ∧ dictGet? ((BM25Store.search bstore nb query top_k
            getScores).1).indexes other = dictGet? bstore.indexes other
        ∧ dictGet? ((BM25Store.search bstore nb query top_k
            getScores).1).files other = dictGet? bstore.files other) := by
  have hq : VectorStore.query vstore nb query_embedding top_k sqrtf =
      (VectorStore.mk
        (dictSet vstore.collections (VectorStore.collectionName nb)
          (VectorStore.emptyCollection nb))
        (dictSet vstore.files (VectorStore.collectionName nb)
          (VectorStore.emptyCollection nb)),
       VQueryResult.mk [] [] []) := by
    simp only [VectorStore.query, VectorStore.get_or_create_collection, hv,
      dictGet?_dictSet_self, Option.getD_some, VectorStore.emptyCollection,
      if_true, or_self]
  have hsearch : BM25Store.search bstore nb query top_k getScores =
      (BM25Store.mk
        (dictSet bstore.collections (BM25Store.collectionName nb)
          (BM25Store.emptyCollection nb))
        (dictSet bstore.indexes (BM25Store.collectionName nb) false)
        (dictSet bstore.files (BM25Store.collectionName nb)
          (BM25Store.emptyCollection nb)),
       ([] : List BM25SearchResult)) := by
    simp only [BM25Store.search, BM25Store.get_or_create_collection, hb,
      dictGet?_dictSet_self, Option.getD_some, BM25Store.emptyCollection,
      if_true, or_self]
  refine ⟨?_, ?_, ?_, ?_, ?_, ?_⟩
  · rw [hq, dictSet_eq_append_of_none vstore.collections _ _ hv]
  · rw [hq]
  · intro other hother
    rw [hq]
    exact ⟨dictGet?_dictSet_ne vstore.collections _ other _ hother,
      dictGet?_dictSet_ne vstore.files _ other _ hother⟩
  · rw [hsearch, dictSet_eq_append_of_none bstore.collections _ _ hb]
  · rw [hsearch]
  · intro other hother
    rw [hsearch]
    exact ⟨dictGet?_dictSet_ne bstore.collections _ other _ hother,
      dictGet?_dictSet_ne bstore.indexes _ other _ hother,
      dictGet?_dictSet_ne bstore.files _ other _ hother⟩

/-- Witness for C10: both stores start empty, so notebook `"nb1"` has no
collection in either. -/
theorem c10_query_creates_collection_witness :
    (VectorStore.query (VectorStore.mk [] []) "nb1" [1] 3 (fun q => q)).1 =
      VectorStore.mk
        ([] ++ [(VectorStore.collectionName "nb1",
          VectorStore.emptyCollection "nb1")])
        (dictSet [] (VectorStore.collectionName "nb1")
          (VectorStore.emptyCollection "nb1"))
    ∧ (VectorStore.query (VectorStore.mk [] []) "nb1" [1] 3 (fun q => q)).2 =
        VQueryResult.mk [] [] []
    ∧ (∀ other, other ≠ VectorStore.collectionName "nb1" →
        dictGet? ((VectorStore.query (VectorStore.mk [] []) "nb1" [1] 3
            (fun q => q)).1).collections other = dictGet? ([] : List (String × VCollection)) other
        ∧ dictGet? ((VectorStore.query (VectorStore.mk [] []) "nb1" [1] 3
            (fun q => q)).1).files other = dictGet? ([] : List (String × VCollection)) other)
    ∧ (BM25Store.search (BM25Store.mk [] [] []) "nb1" "hello" 3 (fun _ => [])).1 =
      BM25Store.mk
        ([] ++ [(BM25Store.collectionName "nb1",
          BM25Store.emptyCollection "nb1")])
        (dictSet [] (BM25Store.collectionName "nb1") false)
        (dictSet [] (BM25Store.collectionName "nb1")
          (BM25Store.emptyCollection "nb1"))
    ∧ (BM25Store.search (BM25Store.mk [] [] []) "nb1" "hello" 3 (fun _ => [])).2 = []
    ∧ (∀ other, other ≠ BM25Store.collectionName "nb1" →
        dictGet? ((BM25Store.search (BM25Store.mk [] [] []) "nb1" "hello" 3
            (fun _ => [])).1).collections other = dictGet? ([] : List (String × BM25Collection)) other
        ∧ dictGet? ((BM25Store.search (BM25Store.mk [] [] []) "nb1" "hello" 3
            (fun _ => [])).1).indexes other = dictGet? ([] : List (String × Bool)) other
        ∧ dictGet? ((BM25Store.search (BM25Store.mk [] [] []) "nb1" "hello" 3
            (fun _ => [])).1).files other = dictGet? ([] : List (String × BM25Collection)) other) :=
  c10_query_creates_collection (VectorStore.mk [] []) (BM25Store.mk [] [] [])
    "nb1" "hello" [1] 3 (fun q => q) (fun _ => []) rfl rfl

/-! ## C2 — merge accumulates into one candidate per key -/

theorem dictGet?_append_single {β : Type} (m : List (String × β)) (k : String)
    (v : β) (key : String) :
    dictGet? (m ++ [(k, v)]) key =
      match dictGet? m key with
      | some w => some w
      | none => if k = key then some v else none := by
  induction m with
  | nil => simp [dictGet?]
  | cons p rest ih =>
      obtain ⟨pk, pv⟩ := p
      rw [List.cons_append, dictGet?, dictGet?]
      by_cases hp : pk = key
      · rw [if_pos hp, if_pos hp]
      · rw [if_neg hp, if_neg hp, ih]

theorem sourcesAt_mergeStep (source : String) (acc : AllResults)
    (result : SearchHit) (key : String) :
    sourcesAt (HybridRetriever.mergeStep source acc result) key =
      if mergeKey result.text = key then
        match sourcesAt acc key with
        | some ss => some (ss ++ [source])
        | none => some [source]
      else sourcesAt acc key := by
  cases hg : dictGet? acc (mergeKey result.text) with
  | some c =>
      simp only [HybridRetriever.mergeStep, hg]
      by_cases hk : mergeKey result.text = key
      · subst hk
        rw [if_pos rfl, sourcesAt, dictGet?_dictSet_self, sourcesAt, hg]
        simp
      · rw [if_neg hk, sourcesAt,
          dictGet?_dictSet_ne acc _ key _ (fun hh => hk hh.symm), sourcesAt]
  | none =>
      simp only [HybridRetriever.mergeStep, hg]
      by_cases hk : mergeKey result.text = key
      · subst hk
        rw [if_pos rfl, sourcesAt, dictGet?_append_single, hg, if_pos rfl,
          sourcesAt, hg]
        simp
      · rw [if_neg hk, sourcesAt, dictGet?_append_single, sourcesAt]
        cases hq : dictGet? acc key with
        | some w => simp
        | none => simp [if_neg hk]

theorem poolInv_mergeStep (source : String) (acc : AllResults)
    (result : SearchHit) (h : poolInv acc) :
    poolInv (HybridRetriever.mergeStep source acc result) := by
  cases hg : dictGet? acc (mergeKey result.text) with
  | some c =>
      have hc := h.2 (mergeKey result.text, c)
        (mem_of_dictGet? acc (mergeKey result.text) c hg)
      simp only [HybridRetriever.mergeStep, hg]
      constructor
      · rw [dictSet_keys_of_mem acc _ _ c hg]
        exact h.1
      · intro p hp
        rcases mem_dictSet acc _ _ p hp with hp | hp
        · rw [hp]
          exact ⟨dictSet_keys_nodup c.ranks source result.rank hc.1,
            dictSet_keys_nodup c.scores source result.score hc.2⟩
        · exact h.2 p hp
  | none =>
      simp only [HybridRetriever.mergeStep, hg]
      constructor
      · rw [List.map_append]
        rw [List.nodup_append]
        refine ⟨h.1, by simp, ?_⟩
        intro a ha hb
        simp at hb
        subst hb
        exact (dictGet?_eq_none_iff acc (mergeKey result.text)).mp hg ha
      · intro p hp
        rcases List.mem_append.mp hp with hp | hp
        · exact h.2 p hp
        · rw [List.mem_singleton] at hp
          rw [hp]
          exact ⟨by simp, by simp⟩

theorem poolInv_mergeGraphStep (acc : AllResults)
    (p : ℕ × GraphSearchResult) (h : poolInv acc) :
    poolInv (HybridRetriever.mergeGraphStep acc p) := by
  by_cases hempty : p.2.context_text = ""
  · simpa only [HybridRetriever.mergeGraphStep, hempty, if_true] using h
  · cases hg : dictGet? acc (mergeKey p.2.context_text) with
    | some c =>
        have hc := h.2 (mergeKey p.2.context_text, c)
          (mem_of_dictGet? acc (mergeKey p.2.context_text) c hg)
        simp only [HybridRetriever.mergeGraphStep, hempty, if_false, hg]
        constructor
        · rw [dictSet_keys_of_mem acc _ _ c hg]
          exact h.1
        · intro q hq
          rcases mem_dictSet acc _ _ q hq with hq | hq
          · rw [hq]
            exact ⟨dictSet_keys_nodup c.ranks "graph" (p.1 + 1) hc.1,
              dictSet_keys_nodup c.scores "graph" p.2.relevance_score hc.2⟩
          · exact h.2 q hq
    | none =>
        simp only [HybridRetriever.mergeGraphStep, hempty, if_false, hg]
        constructor
        · rw [List.map_append, List.nodup_append]
          refine ⟨h.1, by simp, ?_⟩
          intro a ha hb
          simp at hb
          subst hb
          exact (dictGet?_eq_none_iff acc (mergeKey p.2.context_text)).mp hg ha
        · intro q hq
          rcases List.mem_append.mp hq with hq | hq
          · exact h.2 q hq
          · rw [List.mem_singleton] at hq
            rw [hq]
            exact ⟨by simp, by simp⟩

theorem poolInv_merge_results (all_results : AllResults)
    (new_results : List SearchHit) (source : String)
    (h : poolInv all_results) :
    poolInv (HybridRetriever.merge_results all_results new_results source) := by
  induction new_results generalizing all_results with
  | nil => exact h
  | cons r rest ih =>
      rw [HybridRetriever.merge_results, List.foldl_cons]
      exact ih _ (poolInv_mergeStep source all_results r h)

theorem poolInv_merge_graph_results (all_results : AllResults)
    (graph_results : List GraphSearchResult) (h : poolInv all_results) :
    poolInv (HybridRetriever.merge_graph_results all_results graph_results) := by
  rw [HybridRetriever.merge_graph_results]
  generalize graph_results.enum = ps
  induction ps generalizing all_results with
  | nil => exact h
  | cons p rest ih =>
      rw [List.foldl_cons]
      exact ih _ (poolInv_mergeGraphStep all_results p h)

theorem sourcesAt_merge_results (source : String)
    (new_results : List SearchHit) (all_results : AllResults) (key : String) :
    sourcesAt (HybridRetriever.merge_results all_results new_results source) key =
      match sourcesAt all_results key with
      | some ss => some (ss ++ List.replicate (mergeCount new_results key) source)
      | none =>
          if mergeCount new_results key = 0 then none
          else some (List.replicate (mergeCount new_results key) source) := by
  induction new_results generalizing all_results with
  | nil =>
      rw [HybridRetriever.merge_results]
      simp only [List.foldl_nil, mergeCount, List.filter_nil, List.length_nil,
        List.replicate_zero, List.append_nil, if_pos rfl]
      cases sourcesAt all_results key <;> simp
  | cons r rest ih =>
      rw [HybridRetriever.merge_results, List.foldl_cons]
      rw [show List.foldl (HybridRetriever.mergeStep source)
          (HybridRetriever.mergeStep source all_results r) rest =
          HybridRetriever.merge_results
            (HybridRetriever.mergeStep source all_results r) rest source from rfl]
      rw [ih, sourcesAt_mergeStep]
      by_cases hk : mergeKey r.text = key
      · rw [if_pos hk]
        have hcount : mergeCount (r :: rest) key = mergeCount rest key + 1 := by
          simp [mergeCount, List.filter_cons, hk]
        rw [hcount]
        cases hq : sourcesAt all_results key with
        | some ss =>
            simp [List.append_assoc, List.replicate_succ]
        | none =>
            simp [List.replicate_succ]
      · rw [if_neg hk]
        have hcount : mergeCount (r :: rest) key = mergeCount rest key := by
          simp [mergeCount, List.filter_cons, hk]
        rw [hcount]

/-- C2 counterexample: two results of the *same* source (`"vector"`) whose
texts `"ab"` and `"AB"` collide on the normalized key `"ab"` are merged into
a single candidate whose `sources` list is `["vector", "vector"]` — the
sources field is not the duplicate-free set of producing sources the claim
describes. -/
theorem c2_counterexample :
    ¬ (∀ p ∈ HybridRetriever.merge_results []
        [SearchHit.mk "ab" [] 1 1, SearchHit.mk "AB" [] 2 2] "vector",
        (p.2).sources.Nodup) := by
  decide

/-- C2 (amended): merging keeps one entry per normalized key (no duplicate
candidates) and one rank / score entry per source in each candidate's
per-source dicts; a candidate's `sources` after merging a source's hit list
is its previous `sources` extended by one copy of the source name per
colliding hit — so a collision accumulates into the single existing
candidate, but two colliding hits from the same source duplicate that
source's name in `sources` (and the later hit overwrites the source's rank
and score). -/
theorem c2_merge_accumulates (all_results : AllResults)
    (new_results : List SearchHit) (graph_results : List GraphSearchResult)
    (source : String) (hinv : poolInv all_results) :
    poolInv (HybridRetriever.merge_results all_results new_results source)
    ∧ poolInv (HybridRetriever.merge_graph_results all_results graph_results)
    ∧ (∀ key,
        sourcesAt (HybridRetriever.merge_results all_results new_results
          source) key =
          match sourcesAt all_results key with
          | some ss =>
              some (ss ++ List.replicate (mergeCount new_results key) source)
          | none =>
              if mergeCount new_results key = 0 then none
              else some (List.replicate (mergeCount new_results key) source)) :=
  ⟨poolInv_merge_results all_results new_results source hinv,
   poolInv_merge_graph_results all_results graph_results hinv,
   fun key => sourcesAt_merge_results source new_results all_results key⟩

/-- Witness for C2 at a concrete input: the empty pool (trivially
satisfying the pool invariant) merged with two vector hits and one graph
result. -/
theorem c2_merge_accumulates_witness :
    poolInv (HybridRetriever.merge_results []
      [SearchHit.mk "ab" [] 1 1, SearchHit.mk "cd" [] 2 2] "vector")
    ∧ poolInv (HybridRetriever.merge_graph_results []
      [GraphSearchResult.mk "Acme" "Organization" [] "some context" 1])
    ∧ (∀ key,
        sourcesAt (HybridRetriever.merge_results []
          [SearchHit.mk "ab" [] 1 1, SearchHit.mk "cd" [] 2 2] "vector") key =
          match sourcesAt [] key with
          | some ss =>
              some (ss ++ List.replicate
                (mergeCount [SearchHit.mk "ab" [] 1 1, SearchHit.mk "cd" [] 2 2]
                  key) "vector")
          | none =>
              if mergeCount [SearchHit.mk "ab" [] 1 1, SearchHit.mk "cd" [] 2 2]
                  key = 0 then none
              else some (List.replicate
                (mergeCount [SearchHit.mk "ab" [] 1 1, SearchHit.mk "cd" [] 2 2]
                  key) "vector")) :=
  c2_merge_accumulates []
    [SearchHit.mk "ab" [] 1 1, SearchHit.mk "cd" [] 2 2]
    [GraphSearchResult.mk "Acme" "Organization" [] "some context" 1] "vector"
    ⟨List.nodup_nil, fun p hp => absurd hp (List.not_mem_nil p)⟩

/-! ## C3 — which entities the final results carry -/

theorem startsWithChars_iff (needle hay : List Char) :
    startsWithChars needle hay = true ↔ ∃ post, hay = needle ++ post := by
  induction needle generalizing hay with
  | nil =>
      simp [startsWithChars]
  | cons n ns ih =>
      cases hay with
      | nil =>
          simp [startsWithChars]
      | cons h hs =>
          rw [startsWithChars, Bool.and_eq_true, ih]
          constructor
          · rintro ⟨hn, post, hpost⟩
            rw [decide_eq_true_eq] at hn
            exact ⟨post, by rw [hn, hpost, List.cons_append]⟩
          · rintro ⟨post, hpost⟩
            rw [List.cons_append] at hpost
            injection hpost with h1 h2
            exact ⟨by rw [decide_eq_true_eq, h1], post, h2⟩

theorem strContains_iff (needle hay : List Char) :
    strContains needle hay = true ↔ ∃ pre post, hay = pre ++ (needle ++ post) := by
  induction hay with
  | nil =>
      rw [strContains, startsWithChars_iff]
      constructor
      · rintro ⟨post, hpost⟩
        exact ⟨[], post, hpost⟩
      · rintro ⟨pre, post, hpost⟩
        cases pre with
        | nil => exact ⟨post, hpost⟩
        | cons p ps => simp at hpost
  | cons c hs ih =>
      rw [strContains, Bool.or_eq_true, startsWithChars_iff, ih]
      constructor
      · rintro (⟨post, hpost⟩ | ⟨pre, post, hpost⟩)
        · exact ⟨[], post, by rw [hpost]; rfl⟩
        · exact ⟨c :: pre, post, by rw [List.cons_append, hpost]⟩
      · rintro ⟨pre, post, hpost⟩
        cases pre with
        | nil =>
            rw [List.nil_append] at hpost
            exact Or.inl ⟨post, hpost⟩
        | cons p ps =>
            rw [List.cons_append] at hpost
            injection hpost with h1 h2
            exact Or.inr ⟨ps, post, h2⟩

theorem strContains_split (needle a b : List Char) (c : Char)
    (hc : c ∉ needle)
    (h : strContains needle (a ++ c :: b) = true) :
    strContains needle a = true ∨ strContains needle b = true := by
  rcases (strContains_iff needle (a ++ c :: b)).mp h with ⟨pre, post, heq⟩
  by_cases h1 : pre.length + needle.length ≤ a.length
  · left
    rw [strContains_iff]
    have htake : (a ++ c :: b).take a.length = a := List.take_left a (c :: b)
    rw [heq] at htake
    have hsplit : a.length = pre.length + (needle.length +
        (a.length - pre.length - needle.length)) := by omega
    rw [hsplit, List.take_append, List.take_append] at htake
    exact ⟨pre, post.take (a.length - pre.length - needle.length), htake.symm⟩
  · by_cases h2 : a.length + 1 ≤ pre.length
    · right
      rw [strContains_iff]
      refine ⟨pre.drop (a.length + 1), post, ?_⟩
      have hdrop : (a ++ c :: b).drop (a.length + 1) = b := by
        rw [show a ++ c :: b = (a ++ [c]) ++ b by simp, List.drop_left']
        simp
      rw [heq] at hdrop
      rw [List.drop_append_of_le_length h2] at hdrop
      exact hdrop.symm
    · exfalso
      have hlp : pre.length ≤ a.length := by omega
      have hlt : a.length - pre.length < needle.length := by omega
      have hdrop := congrArg (List.drop pre.length) heq
      simp only at hdrop
      rw [List.drop_append_of_le_length hlp, List.drop_left] at hdrop
      have hlen2 : (a.drop pre.length).length = a.length - pre.length :=
        List.length_drop pre.length a
      have hsplit : needle.length = (a.drop pre.length).length +
          (needle.length - (a.length - pre.length)) := by
        rw [hlen2]; omega
      have htake := congrArg (List.take needle.length) hdrop
      simp only at htake
      rw [List.take_left] at htake
      rw [hsplit, List.take_append] at htake
      rcases hm : needle.length - (a.length - pre.length) with _ | m
      · omega
      · rw [hm, List.take_succ_cons] at htake
        apply hc
        rw [← htake]
        exact List.mem_append_right _ (List.mem_cons_self c _)

theorem string_mk_toList (s : String) : String.mk s.toList = s := rfl

theorem splitComma_no_comma (cs : List Char) (h : ',' ∉ cs) :
    splitComma cs = [String.mk cs] := by
  induction cs with
  | nil => rfl
  | cons c rest ih =>
      rw [splitComma]
      rw [if_neg (fun hcon : c = ',' => h (hcon ▸ List.mem_cons_self c rest))]
      rw [ih (fun hcon => h (List.mem_cons_of_mem c hcon))]
      rfl

theorem splitComma_append (cs ds : List Char) (h : ',' ∉ cs) :
    splitComma (cs ++ ',' :: ds) = String.mk cs :: splitComma ds := by
  induction cs with
  | nil =>
      rw [List.nil_append, splitComma, if_pos rfl]
  | cons c rest ih =>
      rw [List.cons_append, splitComma]
      rw [if_neg (fun hcon : c = ',' => h (hcon ▸ List.mem_cons_self c rest))]
      rw [ih (fun hcon => h (List.mem_cons_of_mem c hcon))]
      rfl

theorem joinComma_cons_cons (s s2 : String) (rest : List String) :
    joinComma (s :: s2 :: rest) = s.toList ++ ',' :: joinComma (s2 :: rest) := by
  rw [joinComma]
  exact fun h => absurd h (List.cons_ne_nil s2 rest)

theorem splitComma_joinComma (ss : List String) (hne : ss ≠ [])
    (hcomma : ∀ s ∈ ss, ',' ∉ s.toList) :
    splitComma (joinComma ss) = ss := by
  induction ss with
  | nil => exact absurd rfl hne
  | cons s rest ih =>
      cases rest with
      | nil =>
          rw [joinComma,
            splitComma_no_comma s.toList (hcomma s (List.mem_cons_self s [])),
            string_mk_toList]
      | cons s2 rest2 =>
          rw [joinComma_cons_cons,
            splitComma_append s.toList _ (hcomma s (List.mem_cons_self s _)),
            string_mk_toList,
            ih (List.cons_ne_nil s2 rest2) (fun t ht => hcomma t (List.mem_cons_of_mem s ht))]

theorem sourceTags_no_comma : ∀ s ∈ sourceTags, ',' ∉ s.toList := by
  decide

theorem sourceTags_graph_contained : ∀ s ∈ sourceTags,
    strContains "graph".toList s.toList = true → s = "graph" := by
  decide

theorem strContains_join_iff (ss : List String)
    (hss : ∀ s ∈ ss, s ∈ sourceTags) :
    (strContains "graph".toList (joinComma ss) = true ↔ "graph" ∈ ss) := by
  induction ss with
  | nil =>
      rw [joinComma]
      constructor
      · intro h
        rcases (strContains_iff _ _).mp h with ⟨pre, post, heq⟩
        simp at heq
      · intro h
        simp at h
  | cons s rest ih =>
      cases rest with
      | nil =>
          rw [joinComma]
          constructor
          · intro h
            rw [sourceTags_graph_contained s (hss s (List.mem_cons_self s [])) h]
            exact List.mem_cons_self _ _
          · intro h
            rcases List.mem_cons.mp h with h | h
            · subst h
              rw [strContains_iff]
              exact ⟨[], [], by simp⟩
            · simp at h
      | cons s2 rest2 =>
          rw [joinComma_cons_cons]
          constructor
          · intro h
            rcases strContains_split "graph".toList s.toList
                (joinComma (s2 :: rest2)) ',' (by decide) h with h | h
            · rw [sourceTags_graph_contained s
                (hss s (List.mem_cons_self s _)) h]
              exact List.mem_cons_self _ _
            · exact List.mem_cons_of_mem s
                ((ih (fun t ht => hss t (List.mem_cons_of_mem s ht))).mp h)
          · intro h
            rcases List.mem_cons.mp h with h | h
            · subst h
              rw [strContains_iff]
              exact ⟨[], ',' :: joinComma (s2 :: rest2), by simp⟩
            · have hrest := (ih (fun t ht =>
                hss t (List.mem_cons_of_mem s ht))).mpr h
              rcases (strContains_iff _ _).mp hrest with ⟨pre, post, heq⟩
              rw [strContains_iff]
              refine ⟨s.toList ++ ',' :: pre, post, ?_⟩
              rw [heq]
              simp

theorem sourcesOk_mergeStep (source : String) (acc : AllResults)
    (result : SearchHit) (hsource : source ∈ sourceTags)
    (h : sourcesOk acc) :
    sourcesOk (HybridRetriever.mergeStep source acc result) := by
  cases hg : dictGet? acc (mergeKey result.text) with
  | some c =>
      have hc := h (mergeKey result.text, c)
        (mem_of_dictGet? acc (mergeKey result.text) c hg)
      simp only [HybridRetriever.mergeStep, hg]
      intro p hp
      rcases mem_dictSet acc _ _ p hp with hp | hp
      · rw [hp]
        refine ⟨by simp, ?_⟩
        intro s hs
        rcases List.mem_append.mp hs with hs | hs
        · exact hc.2 s hs
        · rw [List.mem_singleton] at hs
          exact hs ▸ hsource
      · exact h p hp
  | none =>
      simp only [HybridRetriever.mergeStep, hg]
      intro p hp
      rcases List.mem_append.mp hp with hp | hp
      · exact h p hp
      · rw [List.mem_singleton] at hp
        rw [hp]
        refine ⟨by simp, ?_⟩
        intro s hs
        rw [List.mem_singleton] at hs
        exact hs ▸ hsource

theorem sourcesOk_mergeGraphStep (acc : AllResults)
    (q : ℕ × GraphSearchResult) (h : sourcesOk acc) :
    sourcesOk (HybridRetriever.mergeGraphStep acc q) := by
  by_cases hempty : q.2.context_text = ""
  · simpa only [HybridRetriever.mergeGraphStep, hempty, if_true] using h
  · cases hg : dictGet? acc (mergeKey q.2.context_text) with
    | some c =>
        have hc := h (mergeKey q.2.context_text, c)
          (mem_of_dictGet? acc (mergeKey q.2.context_text) c hg)
        simp only [HybridRetriever.mergeGraphStep, hempty, if_false, hg]
        intro p hp
        rcases mem_dictSet acc _ _ p hp with hp | hp
        · rw [hp]
          refine ⟨by simp, ?_⟩
          intro s hs
          rcases List.mem_append.mp hs with hs | hs
          · exact hc.2 s hs
          · rw [List.mem_singleton] at hs
            subst hs
            decide
        · exact h p hp
    | none =>
        simp only [HybridRetriever.mergeGraphStep, hempty, if_false, hg]
        intro p hp
        rcases List.mem_append.mp hp with hp | hp
        · exact h p hp
        · rw [List.mem_singleton] at hp
          rw [hp]
          refine ⟨by simp, ?_⟩
          intro s hs
          rw [List.mem_singleton] at hs
          subst hs
          decide

theorem sourcesOk_merge_results (all_results : AllResults)
    (new_results : List SearchHit) (source : String)
    (hsource : source ∈ sourceTags) (h : sourcesOk all_results) :
    sourcesOk (HybridRetriever.merge_results all_results new_results source) := by
  induction new_results generalizing all_results with
  | nil => exact h
  | cons r rest ih =>
      rw [HybridRetriever.merge_results, List.foldl_cons]
      exact ih _ (sourcesOk_mergeStep source all_results r hsource h)

theorem sourcesOk_merge_graph_results (all_results : AllResults)
    (graph_results : List GraphSearchResult) (h : sourcesOk all_results) :
    sourcesOk (HybridRetriever.merge_graph_results all_results graph_results) := by
  rw [HybridRetriever.merge_graph_results]
  generalize graph_results.enum = ps
  induction ps generalizing all_results with
  | nil => exact h
  | cons p rest ih =>
      rw [List.foldl_cons]
      exact ih _ (sourcesOk_mergeGraphStep all_results p h)

theorem sourcesOk_ite (c : Prop) [Decidable c] (a b : AllResults)
    (ha : sourcesOk a) (hb : sourcesOk b) :
    sourcesOk (if c then a else b) := by
  by_cases hc : c
  · rwa [if_pos hc]
  · rwa [if_neg hc]

theorem sourcesOk_retrievePool (vector_results bm25_results : List SearchHit)
    (graph_results : List GraphSearchResult)
    (use_vector use_bm25 useG : Bool) :
    sourcesOk (HybridRetriever.retrievePool vector_results bm25_results
      graph_results use_vector use_bm25 useG) := by
  have h0 : sourcesOk [] := fun p hp => absurd hp (List.not_mem_nil p)
  have h1 : sourcesOk (if use_vector then
      HybridRetriever.merge_results [] vector_results "vector" else []) :=
    sourcesOk_ite _ _ _
      (sourcesOk_merge_results [] vector_results "vector" (by decide) h0) h0
  have h2 : sourcesOk (if use_bm25 then
      HybridRetriever.merge_results
        (if use_vector then
          HybridRetriever.merge_results [] vector_results "vector" else [])
        bm25_results "bm25"
      else (if use_vector then
        HybridRetriever.merge_results [] vector_results "vector" else [])) :=
    sourcesOk_ite _ _ _
      (sourcesOk_merge_results _ bm25_results "bm25" (by decide) h1) h1
  exact sourcesOk_ite _ _ _
    (sourcesOk_merge_graph_results _ graph_results h2) h2

theorem rerank_source_mem (available useReranker : Bool) (query : String)
    (documents : List RerankDoc) (top_k : ℕ) (predict : Option (List ℚ)) :
    ∀ rr ∈ Reranker.rerank available useReranker query documents top_k predict,
      ∃ d ∈ documents, rr.source = d.source := by
  have hfall : ∀ rr ∈ (sortDescBy (fun r => r.rerank_score)
      (documents.map fallbackRanked)).take top_k,
      ∃ d ∈ documents, rr.source = d.source := by
    intro rr hrr
    have := (mem_sortDescBy _ _ rr).mp (List.mem_of_mem_take hrr)
    rcases List.mem_map.mp this with ⟨d, hd, hdr⟩
    exact ⟨d, hd, by rw [← hdr]; rfl⟩
  intro rr hrr
  rw [Reranker.rerank.eq_def] at hrr
  split at hrr
  · simp at hrr
  · split at hrr
    · exact hfall rr hrr
    · split at hrr
      · exact hfall rr hrr
      · exact hfall rr hrr
      · have := (mem_sortDescBy _ _ rr).mp (List.mem_of_mem_take hrr)
        simp only [rerankNormalized, List.mem_map] at this
        rcases this with ⟨p, hp, hpr⟩
        exact ⟨p.1, (List.of_mem_zip hp).1, by rw [← hpr]⟩

/-- C3 (amended): in the final output of `retrieve`, a result whose source
set includes `"graph"` carries the *global* `graph_entities` summary list —
one `name`/`type`/`related` dict per graph search result of this query, the
same list for every graph-sourced result — not the `entities[]` stored on
that particular candidate during graph-result merging (which the output
never reads); a result whose sources do not include `"graph"` has an empty
entities list.  This holds on both the reranked and the non-reranked
assembly paths. -/
theorem c3_entities_attachment (query : String)
    (vector_results bm25_results : List SearchHit)
    (graph_results : List GraphSearchResult)
    (use_vector use_bm25 use_graph graph_connected : Bool)
    (use_reranker settingsUseReranker reranker_available : Bool)
    (top_k : ℕ) (predict : Option (List ℚ)) (rrfK : ℕ) :
    (HybridRetriever.retrieveCore query vector_results bm25_results
        graph_results use_vector use_bm25 use_graph graph_connected
        use_reranker settingsUseReranker reranker_available top_k predict
        rrfK).map (fun r => r.entities)
      = (HybridRetriever.retrieveCore query vector_results bm25_results
        graph_results use_vector use_bm25 use_graph graph_connected
        use_reranker settingsUseReranker reranker_available top_k predict
        rrfK).map (fun r =>
          if "graph" ∈ r.sources
          then (if use_graph && graph_connected
            then graphEntitySummaries graph_results else [])
          else []) := by
  apply List.map_congr_left
  intro r hr
  have hok := sourcesOk_retrievePool vector_results bm25_results graph_results
    use_vector use_bm25 (use_graph && graph_connected)
  simp only [HybridRetriever.retrieveCore] at hr
  split at hr
  · simp at hr
  · split at hr
    · -- reranked branch
      rcases List.mem_map.mp hr with ⟨rr, hrr, hrrr⟩
      rcases rerank_source_mem _ _ _ _ _ _ rr hrr with ⟨d, hd, hsource⟩
      rcases List.mem_map.mp hd with ⟨p, hp, hpd⟩
      have hpool : p.1 ∈ (HybridRetriever.retrievePool vector_results
          bm25_results graph_results use_vector use_bm25
          (use_graph && graph_connected)).map Prod.snd := by
        rw [HybridRetriever.rrf_fusion, mem_sortDescBy] at hp
        rcases List.mem_map.mp hp with ⟨q, hq, hqp⟩
        exact List.mem_map.mpr ⟨q, hq, by rw [← hqp]⟩
      rcases List.mem_map.mp hpool with ⟨q, hq, hqsnd⟩
      have hsrc := hok q hq
      rw [hqsnd] at hsrc
      have hcomma : ∀ s ∈ (p.1).sources, ',' ∉ s.toList :=
        fun s hs => sourceTags_no_comma s (hsrc.2 s hs)
      have hdsource : d.source = String.mk (joinComma (p.1).sources) := by
        rw [← hpd]
      have hsplit : splitComma (rr.source.toList) = (p.1).sources := by
        rw [hsource, hdsource]
        exact splitComma_joinComma (p.1).sources hsrc.1 hcomma
      rw [← hrrr]
      simp only
      rw [hsplit]
      by_cases hg : "graph" ∈ (p.1).sources
      · rw [if_pos hg, if_pos]
        rw [hsource, hdsource]
        exact (strContains_join_iff (p.1).sources hsrc.2).mpr hg
      · rw [if_neg hg, if_neg]
        intro hcon
        apply hg
        rw [hsource, hdsource] at hcon
        exact (strContains_join_iff (p.1).sources hsrc.2).mp hcon
    · -- non-reranked branch
      rcases List.mem_map.mp hr with ⟨p, hp, hpr⟩
      rw [← hpr]
      simp only
      by_cases hg : "graph" ∈ (p.1).sources
      · rw [if_pos hg, if_pos]
        simp only [List.contains, List.elem_eq_mem, decide_eq_true_eq]
        exact hg
      · rw [if_neg hg, if_neg]
        intro hcon
        simp only [List.contains, List.elem_eq_mem, decide_eq_true_eq] at hcon
        exact hg hcon

/-- C3 counterexample: one graph result for entity `"Acme"` whose related
entities are `[{name: "X"}]`.  The candidate built by
`_merge_graph_results` carries `entities = [{name: "X"}]`, but the final
result of `retrieve` carries `[{name: "Acme", type: ..., related: ...}]` —
the global graph-entity summary list — so the result's entities list is
*not* the `entities[]` carried by that candidate. -/
theorem c3_counterexample :
    (HybridRetriever.retrieveCore "q" [] []
        [GraphSearchResult.mk "Acme" "Organization"
          [PVal.d [("name", PVal.s "X")]] "Acme context" 1]
        false false true true false true true 5 none 60).map
      (fun r => r.entities.map pvalName) = [[some "Acme"]]
    ∧ ((dictGet? (HybridRetriever.merge_graph_results []
        [GraphSearchResult.mk "Acme" "Organization"
          [PVal.d [("name", PVal.s "X")]] "Acme context" 1])
        (mergeKey "Acme context")).map
      (fun c => c.entities.map pvalName)) = some [some "X"]
    ∧ ¬ ((HybridRetriever.retrieveCore "q" [] []
        [GraphSearchResult.mk "Acme" "Organization"
          [PVal.d [("name", PVal.s "X")]] "Acme context" 1]
        false false true true false true true 5 none 60).map
      (fun r => r.entities) = [[PVal.d [("name", PVal.s "X")]]]) := by
  have h1 : (HybridRetriever.retrieveCore "q" [] []
      [GraphSearchResult.mk "Acme" "Organization"
        [PVal.d [("name", PVal.s "X")]] "Acme context" 1]
      false false true true false true true 5 none 60).map
      (fun r => r.entities.map pvalName) = [[some "Acme"]] := by decide
  refine ⟨h1, by decide, ?_⟩
  intro hcon
  have h2 := congrArg (List.map (fun l => List.map pvalName l)) hcon
  rw [List.map_map] at h2
  have h4 : List.map (fun l => List.map pvalName l)
      [[PVal.d [("name", PVal.s "X")]]] = [[some "X"]] := by decide
  rw [h4] at h2
  have h5 : (HybridRetriever.retrieveCore "q" [] []
      [GraphSearchResult.mk "Acme" "Organization"
        [PVal.d [("name", PVal.s "X")]] "Acme context" 1]
      false false true true false true true 5 none 60).map
      ((fun l => List.map pvalName l) ∘ (fun r => r.entities)) =
      [[some "Acme"]] := h1
  rw [h5] at h2
  exact absurd h2 (by decide)

/-! ## C5 — extraction-response parsing -/

theorem dropWhile_cons_prop {α : Type} {p : α → Bool} {l : List α} {c : α}
    {t : List α} (h : l.dropWhile p = c :: t) : p c = false := by
  induction l with
  | nil => simp at h
  | cons a rest ih =>
      rw [List.dropWhile_cons] at h
      by_cases hp : p a = true
      · rw [if_pos hp] at h
        exact ih h
      · rw [if_neg hp] at h
        injection h with h1 _
        rw [← h1]
        exact Bool.eq_false_iff.mpr hp

/-- The span matched by `re.search(r'\x7b[\s\S]*\x7d')` runs from the first
opening brace of the text to its last closing brace: the text splits as
`pre ++ span ++ post` with no opening brace before the span and no closing
brace after it, and the span itself is `'\x7b' :: mid ++ ['\x7d']`. -/
theorem findJsonMatch_spec (cs : List Char) (span : List Char)
    (h : findJsonMatch cs = some span) :
    ∃ pre post, cs = pre ++ span ++ post
      ∧ '\x7b' ∉ pre ∧ '\x7d' ∉ post
      ∧ ∃ mid, span = '\x7b' :: (mid ++ ['\x7d']) := by
  simp only [findJsonMatch] at h
  split at h
  · simp at h
  · injection h with h
    subst h
    rename_i hne
    have hs2ne : ((cs.dropWhile (fun c => c ≠ '\x7b')).reverse.dropWhile
        (fun c => c ≠ '\x7d')).reverse ≠ [] := by
      intro hcon
      apply hne
      rw [hcon]
      rfl
    set s1 := cs.dropWhile (fun c => c ≠ '\x7b') with hs1def
    set d := s1.reverse.dropWhile (fun c => c ≠ '\x7d') with hddef
    have hdne : d ≠ [] := by
      intro hcon
      apply hs2ne
      rw [hcon, List.reverse_nil]
    rcases List.exists_cons_of_ne_nil hdne with ⟨c1, t1, hd⟩
    have hc1 : c1 = '\x7d' := by
      have := dropWhile_cons_prop (hddef ▸ hd)
      simpa using this
    have hsplit1 : cs = cs.takeWhile (fun c => c ≠ '\x7b') ++ s1 := by
      rw [hs1def, List.takeWhile_append_dropWhile]
    set post0 := (s1.reverse.takeWhile (fun c => c ≠ '\x7d')).reverse
      with hpost0def
    have hsplit2 : s1 = d.reverse ++ post0 := by
      have hrev : s1.reverse = s1.reverse.takeWhile (fun c => c ≠ '\x7d') ++ d := by
        rw [hddef, List.takeWhile_append_dropWhile]
      calc s1 = s1.reverse.reverse := by rw [List.reverse_reverse]
        _ = (s1.reverse.takeWhile (fun c => c ≠ '\x7d') ++ d).reverse := by
              rw [← hrev]
        _ = d.reverse ++ post0 := by
              rw [List.reverse_append, hpost0def]
    refine ⟨cs.takeWhile (fun c => c ≠ '\x7b'), post0, ?_, ?_, ?_, ?_⟩
    · rw [List.append_assoc, ← hsplit2]
      exact hsplit1
    · intro hcon
      have := List.mem_takeWhile_imp hcon
      simp at this
    · intro hcon
      rw [hpost0def, List.mem_reverse] at hcon
      have := List.mem_takeWhile_imp hcon
      simp at this
    · -- d.reverse = '\x7b' :: mid ++ ['\x7d']
      rw [hd, List.reverse_cons, hc1]
      rcases ht1 : t1.reverse with _ | ⟨c2, mid0⟩
      · exfalso
        -- then the span is ['\x7d'] alone, but s1 starts with '\x7b'
        have hs1form : s1 = '\x7d' :: post0 := by
          rw [hsplit2, hd, List.reverse_cons, ht1, hc1]
          simp
        have := dropWhile_cons_prop (hs1def ▸ hs1form)
        simp at this
      · have hs1form : s1 = c2 :: (mid0 ++ ['\x7d'] ++ post0) := by
          rw [hsplit2, hd, List.reverse_cons, ht1, hc1]
          simp
        have hc2 : c2 = '\x7b' := by
          have := dropWhile_cons_prop (hs1def ▸ hs1form)
          simpa using this
        exact ⟨mid0, by rw [hc2]; simp⟩

/-- C5 (amended): `_parse_extraction_response` locates the greedy span from
the *first* opening brace to the *last* closing brace of the model output
(not the first balanced block); when no such span exists, or the span is not
valid JSON, it returns empty entities and relations rather than raising (the
embedding is a total function: every Python exception path is a returned
value). -/
theorem c5_parse_extraction (content : String) :
    (findJsonMatch content.toList = none →
      EntityExtractor.parse_extraction_response content =
        ExtractionResult.mk [] [])
    ∧ (∀ span, findJsonMatch content.toList = some span →
        Json.parse (String.mk span) = none →
        EntityExtractor.parse_extraction_response content =
          ExtractionResult.mk [] [])
    ∧ (∀ span, findJsonMatch content.toList = some span →
        ∃ pre post, content.toList = pre ++ span ++ post
          ∧ '\x7b' ∉ pre ∧ '\x7d' ∉ post
          ∧ ∃ mid, span = '\x7b' :: (mid ++ ['\x7d'])) := by
  refine ⟨?_, ?_, ?_⟩
  · intro h
    simp only [EntityExtractor.parse_extraction_response, h]
  · intro span hspan hparse
    simp only [EntityExtractor.parse_extraction_response, hspan, hparse]
  · intro span hspan
    exact findJsonMatch_spec content.toList span hspan

/-- Witness for C5 at concrete inputs: a brace-free output, an output whose
brace span is not JSON, and an output whose span `\x7by\x7d` runs from its
first `\x7b` to its last `\x7d`. -/
theorem c5_parse_extraction_witness :
    EntityExtractor.parse_extraction_response "no braces here" =
      ExtractionResult.mk [] []
    ∧ EntityExtractor.parse_extraction_response "bad \x7b json \x7d" =
      ExtractionResult.mk [] []
    ∧ (∃ pre post, "x\x7by\x7dz".toList = pre ++ "\x7by\x7d".toList ++ post
        ∧ '\x7b' ∉ pre ∧ '\x7d' ∉ post
        ∧ ∃ mid, "\x7by\x7d".toList = '\x7b' :: (mid ++ ['\x7d'])) :=
  ⟨(c5_parse_extraction "no braces here").1 rfl,
   (c5_parse_extraction "bad \x7b json \x7d").2.1 "\x7b json \x7d".toList rfl rfl,
   (c5_parse_extraction "x\x7by\x7dz").2.2 "\x7by\x7d".toList rfl⟩

/-- C5 counterexample: for the output
`\x7b"entities":[\x7b"name":"A"\x7d]\x7d \x7d` (a valid JSON object followed
by a stray closing brace), parsing the *first balanced block* — as the claim
describes — yields the entity `"A"`, but the code's greedy
first-brace-to-last-brace span is not valid JSON, so the code returns empty
results: the code does not locate the first balanced block. -/
theorem c5_counterexample :
    (EntityExtractor.parse_extraction_response
      "\x7b\"entities\":[\x7b\"name\":\"A\"\x7d]\x7d \x7d").entities.map
      (fun e => e.name) = []
    ∧ (EntityExtractor.parse_extraction_response_specBalanced
      "\x7b\"entities\":[\x7b\"name\":\"A\"\x7d]\x7d \x7d").entities.map
      (fun e => e.name) = ["A"]
    ∧ ¬ (EntityExtractor.parse_extraction_response
        "\x7b\"entities\":[\x7b\"name\":\"A\"\x7d]\x7d \x7d" =
      EntityExtractor.parse_extraction_response_specBalanced
        "\x7b\"entities\":[\x7b\"name\":\"A\"\x7d]\x7d \x7d") := by
  have h1 : (EntityExtractor.parse_extraction_response
      "\x7b\"entities\":[\x7b\"name\":\"A\"\x7d]\x7d \x7d").entities.map
      (fun e => e.name) = [] := by decide
  have h2 : (EntityExtractor.parse_extraction_response_specBalanced
      "\x7b\"entities\":[\x7b\"name\":\"A\"\x7d]\x7d \x7d").entities.map
      (fun e => e.name) = ["A"] := by decide
  refine ⟨h1, h2, ?_⟩
  intro hcon
  have h3 : (EntityExtractor.parse_extraction_response
      "\x7b\"entities\":[\x7b\"name\":\"A\"\x7d]\x7d \x7d").entities.map
      (fun e => e.name) =
      (EntityExtractor.parse_extraction_response_specBalanced
      "\x7b\"entities\":[\x7b\"name\":\"A\"\x7d]\x7d \x7d").entities.map
      (fun e => e.name) := by rw [hcon]
  rw [h1, h2] at h3
  exact absurd h3 (by decide)
